import Mathlib

/-!
# Manual approval gate: comment resolution (`approval.go`)

A shallow embedding of `approval.go` and the properties of its approval
resolution.  Go strings are Lean strings, Go `int` is `Int`, a slice is a
`List`, and a Go result pair `(value, error)` is a Lean pair whose second
component is an `Option`.
-/

namespace ManualApproval

/-! ## Data model -/

/-- Error codes of Go's `regexp/syntax` parser that the modelled fragment can
raise, plus `unsupported` for pattern text outside the modelled fragment. -/
inductive ErrorCode where
  | missingParen
  | unexpectedParen
  | missingBracket
  | missingRepeatArgument
  | invalidRepeatOp
  | invalidCharRange
  | invalidEscape
  | trailingBackslash
  | invalidPerlOp
  | unsupported
  deriving DecidableEq, Repr

/-- Go `error` values that `approval.go` can return: the `fmt.Errorf` of
`approvalFromComments` and the error of `regexp.Compile` passed through. -/
inductive Error where
  | noApprovers
  | regexp (code : ErrorCode)
  deriving DecidableEq, Repr

/-- The two entry points of Go's `regexp` package used by `approval.go`:
`regexp.Compile` and `(*Regexp).MatchString`. -/
structure RegexpPkg where
  Regexp : Type
  Compile : String → Except ErrorCode Regexp
  MatchString : Regexp → String → Bool

/-- Type `approvalStatus` (a Go string type).  `empty` is the zero value `""`
returned next to the configuration error; the other three are the constants
`approvalStatusPending`, `approvalStatusApproved` and `approvalStatusDenied`. -/
inductive approvalStatus where
  | empty
  | pending
  | approved
  | denied
  deriving DecidableEq, Repr

/-- What `approvalFromComments` reads from a `*github.IssueComment`:
`comment.User.GetLogin()` and `comment.GetBody()`. -/
structure IssueComment where
  login : String
  body : String
  deriving DecidableEq, Repr

/-! ## A model of Go's `regexp` package

`approval.go` calls `regexp.Compile` and `MatchString` from Go's standard
library.  The model below covers a fragment of the RE2 pattern syntax as Go
parses it with the `syntax.Perl` flags: ASCII literals, `.`, `^`, `$`, `|`,
groups `( )`, flag groups `(?ims-U)` and `(?i:...)`, the repetitions `*`, `+`
and `?` with their lazy forms, bracket classes with ranges and negation, and
the escapes `\d \s \w \D \S \W`, `\a \f \n \r \t \v` and escaped
punctuation.  Pattern text outside the fragment (non-ASCII pattern
characters, counted repetition `{n,m}`, named groups, remaining escapes,
named classes inside brackets) is answered with `ErrorCode.unsupported`, and
the size limits of the Go compiler are not modelled.  Which error code is
raised is never used below, only whether compilation fails.  The text that
is matched may hold any characters. -/

/-- Perl character classes `\d`, `\s`, `\w`. -/
inductive PerlClass where
  | digit
  | space
  | word
  deriving DecidableEq, Repr

/-- One member of a bracket expression. -/
inductive ClassItem where
  | range (lo hi : Char)
  | perl (kind : PerlClass) (negated : Bool)
  deriving DecidableEq, Repr

/-- Parsed regular expressions (`syntax.Regexp`), with binary concatenation
and alternation.  Greediness is not recorded: it does not change whether a
text matches. -/
inductive Regex where
  | emptyMatch
  | literal (c : Char) (foldCase : Bool)
  | charClass (foldCase negated : Bool) (items : List ClassItem)
  | anyCharNotNL
  | anyChar
  | beginLine
  | endLine
  | beginText
  | endText
  | capture (sub : Regex)
  | star (sub : Regex)
  | plus (sub : Regex)
  | quest (sub : Regex)
  | concat (left right : Regex)
  | alternate (left right : Regex)
  deriving DecidableEq, Repr

/-- The ASCII characters other than `c` in the orbit of `c` under
`unicode.SimpleFold`.  Besides the two cases of each ASCII letter, the only
characters folding to ASCII are the Kelvin sign U+212A (with `k`) and the
long s U+017F (with `s`). -/
def asciiFold (c : Char) : List Char :=
  if c.isUpper then [c.toLower]
  else if c.isLower then [c.toUpper]
  else if c = Char.ofNat 0x212A then ['K', 'k']
  else if c = Char.ofNat 0x017F then ['S', 's']
  else []

/-- Whether the text character `x` matches the ASCII pattern literal `c`. -/
def literalMatches (foldCase : Bool) (c x : Char) : Bool :=
  x == c || (foldCase && (asciiFold x).contains c)

/-- Membership in the Perl classes: `\d = [0-9]`, `\s = [\t\n\f\r ]`,
`\w = [0-9A-Za-z_]`. -/
def PerlClass.contains : PerlClass → Char → Bool
  | .digit, x => x.isDigit
  | .space, x => x == ' ' || x == '\t' || x == '\n' || x == Char.ofNat 12 || x == '\r'
  | .word, x => x.isAlphanum || x == '_'

/-- Membership of the text character `x` in a class item with ASCII bounds;
under case folding the item also holds every character with an orbit member
in it, and a negated Perl class is the complement of the folded class. -/
def ClassItem.contains (foldCase : Bool) : ClassItem → Char → Bool
  | .range lo hi, x =>
    let inRange := fun (y : Char) => decide (lo ≤ y) && decide (y ≤ hi)
    inRange x || (foldCase && (asciiFold x).any inRange)
  | .perl kind negated, x =>
    (kind.contains x || (foldCase && (asciiFold x).any kind.contains)) != negated

/-- Every way to cut a text in two. -/
def splits : List Char → List (List Char × List Char)
  | [] => [([], [])]
  | c :: cs => ([], c :: cs) :: (splits cs).map (fun p => (c :: p.1, p.2))

/-- Repetition: `s` is a sequence of non-empty pieces each accepted by `m`;
`fuel` bounds the number of pieces. -/
def starMatch (m : List Char → List Char → List Char → Bool) :
    Nat → List Char → List Char → List Char → Bool
  | 0, _, s, _ => s.isEmpty
  | fuel + 1, pre, s, post =>
    s.isEmpty ||
      (splits s).any (fun p =>
        !p.1.isEmpty && m pre p.1 (p.2 ++ post) && starMatch m fuel (pre ++ p.1) p.2 post)

/-- Whether the regular expression matches exactly the piece `s` of the text
`pre ++ s ++ post`. -/
def Regex.matchAt : Regex → List Char → List Char → List Char → Bool
  | .emptyMatch, _, s, _ => s.isEmpty
  | .literal c foldCase, _, s, _ =>
    match s with
    | [x] => literalMatches foldCase c x
    | _ => false
  | .charClass foldCase negated items, _, s, _ =>
    match s with
    | [x] => items.any (fun item => item.contains foldCase x) != negated
    | _ => false
  | .anyCharNotNL, _, s, _ =>
    match s with
    | [x] => x != '\n'
    | _ => false
  | .anyChar, _, s, _ =>
    match s with
    | [_] => true
    | _ => false
  | .beginLine, pre, s, _ => s.isEmpty && (pre.isEmpty || pre.getLast? == some '\n')
  | .endLine, _, s, post => s.isEmpty && (post.isEmpty || post.head? == some '\n')
  | .beginText, pre, s, _ => s.isEmpty && pre.isEmpty
  | .endText, _, s, post => s.isEmpty && post.isEmpty
  | .capture sub, pre, s, post => sub.matchAt pre s post
  | .star sub, pre, s, post =>
    starMatch (fun a b c => sub.matchAt a b c) s.length pre s post
  | .plus sub, pre, s, post =>
    (splits s).any (fun p =>
      sub.matchAt pre p.1 (p.2 ++ post) &&
        starMatch (fun a b c => sub.matchAt a b c) p.2.length (pre ++ p.1) p.2 post)
  | .quest sub, pre, s, post => s.isEmpty || sub.matchAt pre s post
  | .concat left right, pre, s, post =>
    (splits s).any (fun p =>
      left.matchAt pre p.1 (p.2 ++ post) && right.matchAt (pre ++ p.1) p.2 post)
  | .alternate left right, pre, s, post =>
    left.matchAt pre s post || right.matchAt pre s post

/-- Method `MatchString` on the text as a character list: some piece of the
text matches (the search is not anchored). -/
def Regex.matchChars (re : Regex) (text : List Char) : Bool :=
  (splits text).any (fun p => (splits p.2).any (fun q => re.matchAt p.1 q.1 q.2))

/-- Parser flags that change the meaning of pattern text. -/
structure Flags where
  foldCase : Bool
  oneLine : Bool
  dotNL : Bool
  nonGreedy : Bool
  deriving DecidableEq, Repr

/-- The flags of `syntax.Perl` that matter here: `OneLine` is set. -/
def Flags.perl : Flags := ⟨false, true, false, false⟩

/-- An open group on the parser stack: what was parsed before the
parenthesis and the flags to restore at the closing parenthesis. -/
structure Frame where
  items : List Regex
  alts : List Regex
  flags : Flags
  capture : Bool
  deriving DecidableEq, Repr

/-- Whether the previous token was a repetition operator. -/
inductive RepeatState where
  | none
  | afterOp
  | afterLazy
  deriving DecidableEq, Repr

/-- Position inside a bracket expression. -/
inductive ClassPos where
  | start (first : Bool)
  | lo (c : Char)
  | loDash (c : Char)
  | escLo
  | escHi (c : Char)
  deriving DecidableEq, Repr

/-- What the parser is in the middle of. -/
inductive Mode where
  | normal
  | escape
  | groupStart
  | groupFlags (flags : Flags) (negating sawFlag : Bool)
  | classStart
  | cls (negated : Bool) (items : List ClassItem) (pos : ClassPos)
  deriving DecidableEq, Repr

/-- Parser state: `items` is the concatenation being built and `alts` the
finished branches of the current alternation, both most recent first. -/
structure ParserState where
  flags : Flags
  items : List Regex
  alts : List Regex
  frames : List Frame
  rep : RepeatState
  mode : Mode
  deriving DecidableEq, Repr

/-- The state in which parsing starts. -/
def ParserState.init : ParserState :=
  ⟨Flags.perl, [], [], [], .none, .normal⟩

/-- Concatenation of the items of a stack segment (most recent first). -/
def concatOf : List Regex → Regex
  | [] => .emptyMatch
  | r :: rs => rs.foldl (fun acc a => .concat a acc) r

/-- Alternation of the finished branches (most recent first) and the last
branch. -/
def altOf (alts : List Regex) (last : Regex) : Regex :=
  alts.foldl (fun acc a => .alternate a acc) last

/-- Escapes `\a \f \n \r \t \v`. -/
def controlEscape (c : Char) : Option Char :=
  if c = 'a' then some (Char.ofNat 7)
  else if c = 'f' then some (Char.ofNat 12)
  else if c = 'n' then some '\n'
  else if c = 'r' then some '\r'
  else if c = 't' then some '\t'
  else if c = 'v' then some (Char.ofNat 11)
  else none

/-- Escapes `\d \s \w \D \S \W`. -/
def perlEscape (c : Char) : Option (PerlClass × Bool) :=
  if c = 'd' then some (.digit, false)
  else if c = 'D' then some (.digit, true)
  else if c = 's' then some (.space, false)
  else if c = 'S' then some (.space, true)
  else if c = 'w' then some (.word, false)
  else if c = 'W' then some (.word, true)
  else none

/-- The character denoted by a single-character escape: escaped ASCII
punctuation stands for itself. -/
def charEscape (c : Char) : Option Char :=
  if c ≠ '_' ∧ ¬ c.isAlphanum then some c else controlEscape c

/-- Push a parsed atom on the current concatenation. -/
def ParserState.push (st : ParserState) (r : Regex) : ParserState :=
  { st with items := r :: st.items, rep := .none, mode := .normal }

/-- Apply a repetition operator to the most recent atom. -/
def ParserState.applyRepeat (st : ParserState) (op : Regex → Regex) :
    Except ErrorCode ParserState :=
  match st.rep with
  | .none =>
    match st.items with
    | [] => .error .missingRepeatArgument
    | r :: rs => .ok { st with items := op r :: rs, rep := .afterOp }
  | _ => .error .invalidRepeatOp

/-- Parser reaction to `)`. -/
def ParserState.closeGroup (st : ParserState) : Except ErrorCode ParserState :=
  match st.frames with
  | [] => .error .unexpectedParen
  | f :: fs =>
    let group := altOf st.alts (concatOf st.items)
    .ok { flags := f.flags
          items := (if f.capture then Regex.capture group else group) :: f.items
          alts := f.alts
          frames := fs
          rep := .none
          mode := .normal }

/-- Open a group: what was parsed so far is saved with the current flags. -/
def ParserState.openGroup (st : ParserState) (capture : Bool) (flags : Flags) : ParserState :=
  { flags := flags
    items := []
    alts := []
    frames := ⟨st.items, st.alts, st.flags, capture⟩ :: st.frames
    rep := .none
    mode := .normal }

/-- One pattern character in normal mode. -/
def ParserState.stepNormal (st : ParserState) (c : Char) : Except ErrorCode ParserState :=
  if c = '(' then .ok { st with rep := .none, mode := .groupStart }
  else if c = '|' then
    .ok { st with items := [], alts := concatOf st.items :: st.alts, rep := .none }
  else if c = ')' then st.closeGroup
  else if c = '^' then .ok (st.push (if st.flags.oneLine then .beginText else .beginLine))
  else if c = '$' then .ok (st.push (if st.flags.oneLine then .endText else .endLine))
  else if c = '.' then .ok (st.push (if st.flags.dotNL then .anyChar else .anyCharNotNL))
  else if c = '[' then .ok { st with rep := .none, mode := .classStart }
  else if c = '*' then st.applyRepeat .star
  else if c = '+' then st.applyRepeat .plus
  else if c = '?' then
    match st.rep with
    | .afterOp => .ok { st with rep := .afterLazy }
    | _ => st.applyRepeat .quest
  else if c = '{' then .error .unsupported
  else if c = '\\' then .ok { st with rep := .none, mode := .escape }
  else .ok (st.push (.literal c st.flags.foldCase))

/-- One pattern character at the start of an item of a bracket expression
(`first` is set for the first item, where `]` is an ordinary character). -/
def ParserState.stepClassItem (st : ParserState) (negated : Bool) (items : List ClassItem)
    (first : Bool) (c : Char) : Except ErrorCode ParserState :=
  if c = ']' ∧ first = false then
    .ok (st.push (.charClass st.flags.foldCase negated items.reverse))
  else if c = '\\' then .ok { st with mode := .cls negated items .escLo }
  else if c = '[' then .error .unsupported
  else .ok { st with mode := .cls negated items (.lo c) }

/-- One pattern character inside a bracket expression. -/
def ParserState.stepClass (st : ParserState) (negated : Bool) (items : List ClassItem)
    (pos : ClassPos) (c : Char) : Except ErrorCode ParserState :=
  match pos with
  | .start first => st.stepClassItem negated items first c
  | .lo lo =>
    if c = '-' then .ok { st with mode := .cls negated items (.loDash lo) }
    else st.stepClassItem negated (.range lo lo :: items) false c
  | .loDash lo =>
    if c = ']' then
      .ok (st.push (.charClass st.flags.foldCase negated
        (ClassItem.range '-' '-' :: .range lo lo :: items).reverse))
    else if c = '\\' then .ok { st with mode := .cls negated items (.escHi lo) }
    else if c < lo then .error .invalidCharRange
    else .ok { st with mode := .cls negated (.range lo c :: items) (.start false) }
  | .escLo =>
    match perlEscape c with
    | some (kind, neg) =>
      .ok { st with mode := .cls negated (.perl kind neg :: items) (.start false) }
    | none =>
      match charEscape c with
      | some x => .ok { st with mode := .cls negated items (.lo x) }
      | none => .error .unsupported
  | .escHi lo =>
    match charEscape c with
    | some x =>
      if x < lo then .error .invalidCharRange
      else .ok { st with mode := .cls negated (.range lo x :: items) (.start false) }
    | none => .error .unsupported

/-- One pattern character inside a flag group `(?...`. -/
def ParserState.stepFlags (st : ParserState) (flags : Flags) (negating sawFlag : Bool)
    (c : Char) : Except ErrorCode ParserState :=
  if c = 'i' then .ok { st with mode := .groupFlags { flags with foldCase := !negating } negating true }
  else if c = 'm' then .ok { st with mode := .groupFlags { flags with oneLine := negating } negating true }
  else if c = 's' then .ok { st with mode := .groupFlags { flags with dotNL := !negating } negating true }
  else if c = 'U' then .ok { st with mode := .groupFlags { flags with nonGreedy := !negating } negating true }
  else if c = '-' then
    if negating then .error .invalidPerlOp
    else .ok { st with mode := .groupFlags flags true false }
  else if c = ':' ∨ c = ')' then
    if negating ∧ sawFlag = false then .error .invalidPerlOp
    else if c = ':' then .ok (st.openGroup false flags)
    else .ok { st with flags := flags, rep := .none, mode := .normal }
  else if c = 'P' ∨ c = '<' then .error .unsupported
  else .error .invalidPerlOp

/-- The parser reading one pattern character. -/
def ParserState.step (st : ParserState) (c : Char) : Except ErrorCode ParserState :=
  if c.toNat ≥ 128 then .error .unsupported
  else
    match st.mode with
    | .normal => st.stepNormal c
    | .escape =>
      match perlEscape c with
      | some (kind, neg) => .ok (st.push (.charClass st.flags.foldCase false [.perl kind neg]))
      | none =>
        match charEscape c with
        | some x => .ok (st.push (.literal x st.flags.foldCase))
        | none => .error .unsupported
    | .groupStart =>
      if c = '?' then .ok { st with mode := .groupFlags st.flags false false }
      else (st.openGroup true st.flags).stepNormal c
    | .groupFlags flags negating sawFlag => st.stepFlags flags negating sawFlag c
    | .classStart =>
      if c = '^' then .ok { st with mode := .cls true [] (.start true) }
      else st.stepClassItem false [] true c
    | .cls negated items pos => st.stepClass negated items pos c

/-- The parser reading a run of pattern characters. -/
def ParserState.run : ParserState → List Char → Except ErrorCode ParserState
  | st, [] => .ok st
  | st, c :: cs =>
    match st.step c with
    | .error e => .error e
    | .ok st => st.run cs

/-- End of the pattern: everything opened must have been closed. -/
def ParserState.finish (st : ParserState) : Except ErrorCode Regex :=
  match st.mode with
  | .normal =>
    match st.frames with
    | [] => .ok (altOf st.alts (concatOf st.items))
    | _ :: _ => .error .missingParen
  | .escape => .error .trailingBackslash
  | .groupStart => .error .missingParen
  | .groupFlags _ _ _ => .error .invalidPerlOp
  | .classStart => .error .missingBracket
  | .cls _ _ pos =>
    match pos with
    | .escLo => .error .trailingBackslash
    | .escHi _ => .error .trailingBackslash
    | _ => .error .missingBracket

/-- Parse a pattern given as a character list. -/
def parseChars (pattern : List Char) : Except ErrorCode Regex :=
  match ParserState.init.run pattern with
  | .error e => .error e
  | .ok st => st.finish

/-- The modelled `regexp` package. -/
def goRegexp : RegexpPkg where
  Regexp := Regex
  Compile := fun pattern => parseChars pattern.toList
  MatchString := fun re text => re.matchChars text.toList

/-! ## `approversIndex` -/

/-- The loop of `approversIndex`, started at index `idx`. -/
def approversIndexFrom (idx : Nat) : List String → String → Int
  | [], _ => -1
  | approver :: rest, name =>
    if approver = name then (idx : Int) else approversIndexFrom (idx + 1) rest name

/-- Function `approversIndex`: position of `name` in `approvers`, or `-1`. -/
def approversIndex (approvers : List String) (name : String) : Int :=
  approversIndexFrom 0 approvers name

/-! ## `isApproved` and `isDenied` -/

/-- The pattern text `fmt.Sprintf("(?i)^%s[.!]*\n*\\s*$", word)`. -/
def wordPattern (word : String) : String :=
  "(?i)^" ++ word ++ "[.!]*\n*\\s*$"

/-- Function `isApproved`, with the package-level `approvedWords` passed in. -/
def isApproved (R : RegexpPkg) (approvedWords : List String) (commentBody : String) :
    Bool × Option Error :=
  match approvedWords with
  | [] => (false, none)
  | approvedWord :: rest =>
    match R.Compile (wordPattern approvedWord) with
    | .error err => (false, some (.regexp err))
    | .ok re =>
      if R.MatchString re commentBody then (true, none)
      else isApproved R rest commentBody

/-- Function `isDenied`, with the package-level `deniedWords` passed in. -/
def isDenied (R : RegexpPkg) (deniedWords : List String) (commentBody : String) :
    Bool × Option Error :=
  match deniedWords with
  | [] => (false, none)
  | deniedWord :: rest =>
    match R.Compile (wordPattern deniedWord) with
    | .error err => (false, some (.regexp err))
    | .ok re =>
      if R.MatchString re commentBody then (true, none)
      else isDenied R rest commentBody

/-! ## `approvalFromComments` -/

/-- Outcome of one iteration of the comment loop: go on with the (possibly
grown) `approvals` slice, or return from the function. -/
inductive LoopState where
  | next (approvals : List String)
  | done (status : approvalStatus) (err : Option Error)
  deriving DecidableEq, Repr

/-- Body of the `for _, comment := range comments` loop of
`approvalFromComments`; `minimumApprovals` is the value after the
adjustment made before the loop. -/
def commentStep (R : RegexpPkg) (approvedWords deniedWords : List String)
    (approvers : List String) (minimumApprovals : Int) (disallowedUsers : List String)
    (approvals : List String) (comment : IssueComment) : LoopState :=
  let commentUser := comment.login
  if approversIndex disallowedUsers commentUser ≥ 0 then .next approvals
  else if approversIndex approvals commentUser ≥ 0 then .next approvals
  else if approvers.length > 0 ∧ approversIndex approvers commentUser < 0 then .next approvals
  else
    let commentBody := comment.body
    match isApproved R approvedWords commentBody with
    | (_, some err) => .done .pending (some err)
    | (true, none) =>
      let approvals := approvals ++ [commentUser]
      if (approvals.length : Int) ≥ minimumApprovals then .done .approved none
      else .next approvals
    | (false, none) =>
      match isDenied R deniedWords commentBody with
      | (_, some err) => .done .pending (some err)
      | (true, none) => .done .denied none
      | (false, none) => .next approvals

/-- The comment loop of `approvalFromComments`, from a given `approvals`. -/
def commentLoop (R : RegexpPkg) (approvedWords deniedWords : List String)
    (approvers : List String) (minimumApprovals : Int) (disallowedUsers : List String) :
    List String → List IssueComment → LoopState
  | approvals, [] => .next approvals
  | approvals, comment :: rest =>
    match commentStep R approvedWords deniedWords approvers minimumApprovals disallowedUsers
        approvals comment with
    | .next approvals => commentLoop R approvedWords deniedWords approvers minimumApprovals
        disallowedUsers approvals rest
    | .done status err => .done status err

/-- The value of `minimumApprovals` used by the loop: `len(approvers)` when
the argument is `0`, the argument otherwise. -/
def effectiveMinimum (approvers : List String) (minimumApprovals : Int) : Int :=
  if minimumApprovals = 0 then (approvers.length : Int) else minimumApprovals

/-- Function `approvalFromComments`, with the package-level `approvedWords`
and `deniedWords` passed in.  The two nested tests before the loop are one
conjunction here, and the assignment `minimumApprovals = len(approvers)` is
`effectiveMinimum`. -/
def approvalFromComments (R : RegexpPkg) (approvedWords deniedWords : List String)
    (comments : List IssueComment) (approvers : List String) (minimumApprovals : Int)
    (disallowedUsers : List String) : approvalStatus × Option Error :=
  if minimumApprovals = 0 ∧ approvers.length = 0 then (.empty, some .noApprovers)
  else
    match commentLoop R approvedWords deniedWords approvers
        (effectiveMinimum approvers minimumApprovals) disallowedUsers [] comments with
    | .done status err => (status, err)
    | .next _ => (.pending, none)

/-- Glossary, "eligible commenter": an author not in `disallowedUsers` and,
when `approvers` is non-empty, a member of it. -/
def eligible (approvers disallowedUsers : List String) (user : String) : Prop :=
  user ∉ disallowedUsers ∧ (approvers ≠ [] → user ∈ approvers)

/-- The local variable `approvals` of `approvalFromComments` once the loop has
gone through `comments` without returning; `none` when the function returned
inside the loop. -/
def approvalsAfter (R : RegexpPkg) (approvedWords deniedWords : List String)
    (comments : List IssueComment) (approvers : List String) (minimumApprovals : Int)
    (disallowedUsers : List String) : Option (List String) :=
  match commentLoop R approvedWords deniedWords approvers
      (effectiveMinimum approvers minimumApprovals) disallowedUsers [] comments with
  | .next approvals => some approvals
  | .done _ _ => none

/-- The part of the compiled word pattern after the word: `[.!]*\n*\s*$`
under the flag `i`. -/
def tailRegex : Regex :=
  .concat (.star (.charClass true false [.range '.' '.', .range '!' '!']))
    (.concat (.star (.literal '\n' true))
      (.concat (.star (.charClass true false [.perl .space false])) .endText))

/-- The regular expression that the pattern of a plain word compiles to. -/
def wordRegex (word : List Char) : Regex :=
  .concat .beginText (word.foldr (fun c acc => .concat (.literal c true) acc) tailRegex)

/-- Eligibility is decidable: it is made of memberships in lists. -/
instance eligibleDecidable (approvers disallowedUsers : List String) (user : String) :
    Decidable (eligible approvers disallowedUsers user) := by
  unfold eligible
  exact inferInstance

/-- The tally in the words of the data model ("an ordered sequence of approving
user identifiers, each appearing at most once"): starting from `tally`, the
authors of the approve-classified comments written by eligible commenters,
each author once, in the order of their first such comment. -/
def firstApprovers (R : RegexpPkg) (approvedWords : List String)
    (approvers disallowedUsers : List String) : List String → List IssueComment → List String
  | tally, [] => tally
  | tally, c :: rest =>
    if eligible approvers disallowedUsers c.login ∧ c.login ∉ tally ∧
        isApproved R approvedWords c.body = (true, none) then
      firstApprovers R approvedWords approvers disallowedUsers (tally ++ [c.login]) rest
    else firstApprovers R approvedWords approvers disallowedUsers tally rest

/-! ## The approval environment and the request builder -/

/-- What `createApprovalIssue` reads from the `*github.Issue` returned by
`Issues.Create`: `GetNumber()` and `GetURL()`. -/
structure Issue where
  number : Int
  url : String
  deriving DecidableEq, Repr

/-- The fields of `github.IssueRequest` set by `createApprovalIssue`. -/
structure IssueRequest where
  Title : String
  Body : String
  Assignees : List String
  deriving DecidableEq, Repr

/-- Type `approvalEnvironment`; `Client` stands for `*github.Client` and a nil
`*github.Issue` is `none`. -/
structure approvalEnvironment (Client : Type) where
  client : Client
  repoFullName : String
  repo : String
  repoOwner : String
  runID : Int
  approvalIssue : Option Issue
  approvalIssueNumber : Int
  issueTitle : String
  issueBody : String
  issueApprovers : List String
  disallowedUsers : List String
  minimumApprovals : Int
  workflowInitiator : String

/-- The error of `newApprovalEnvironment`:
`fmt.Errorf("repo owner and name in unexpected format: %s", repoFullName)`. -/
inductive FormatError where
  | unexpectedFormat (repoFullName : String)
  deriving DecidableEq, Repr

/-- Go's `strings.Split(s, sep)` for a separator of one ASCII character, on
character lists: the pieces between the separators, one more than there are
separators. -/
def stringsSplit (sep : Char) : List Char → List (List Char)
  | [] => [[]]
  | c :: cs =>
    if c = sep then [] :: stringsSplit sep cs
    else
      match stringsSplit sep cs with
      | [] => [[c]]
      | piece :: pieces => (c :: piece) :: pieces

/-- Function `newApprovalEnvironment`. -/
def newApprovalEnvironment {Client : Type} (client : Client) (repoFullName repoOwner : String)
    (runID : Int) (approvers : List String) (minimumApprovals : Int)
    (issueTitle issueBody : String) (disallowedUsers : List String)
    (workflowInitiator : String) : Except FormatError (approvalEnvironment Client) :=
  let repoOwnerAndName := stringsSplit '/' repoFullName.toList
  if repoOwnerAndName.length ≠ 2 then .error (.unexpectedFormat repoFullName)
  else
    let repo := String.mk (repoOwnerAndName.getD 1 [])
    .ok { client := client
          repoFullName := repoFullName
          repo := repo
          repoOwner := repoOwner
          runID := runID
          approvalIssue := none
          approvalIssueNumber := 0
          issueApprovers := approvers
          disallowedUsers := disallowedUsers
          minimumApprovals := minimumApprovals
          issueTitle := "Manual approval required for: " ++ issueTitle ++ " (run " ++
            toString runID ++ ")"
          issueBody := issueBody
          workflowInitiator := workflowInitiator }

/-- Method `runURL`, with the constant `githubBaseURL` passed in. -/
def approvalEnvironment.runURL {Client : Type} (githubBaseURL : String)
    (a : approvalEnvironment Client) : String :=
  githubBaseURL ++ a.repoFullName ++ "/actions/runs/" ++ toString a.runID

/-- Function `formatAcceptedWords`: the words quoted and joined by commas. -/
def formatAcceptedWords (words : List String) : String :=
  ", ".intercalate (words.map (fun word => "\"" ++ word ++ "\""))

/-- The `&github.IssueRequest` that `createApprovalIssue` builds and passes to
`Issues.Create`; `fmt.Sprintf("%s", a.issueApprovers)` prints the slice
between brackets with spaces. -/
def approvalEnvironment.issueRequest {Client : Type} (githubBaseURL : String)
    (approvedWords deniedWords : List String) (a : approvalEnvironment Client) :
    IssueRequest :=
  let issueApproversText :=
    if a.issueApprovers.length > 0 then "[" ++ " ".intercalate a.issueApprovers ++ "]"
    else "Anyone can approve."
  let assignees :=
    if a.issueApprovers.length > 0 then a.issueApprovers else [a.workflowInitiator]
  let issueBody :=
    "Workflow is pending manual review.\nURL: " ++ a.runURL githubBaseURL ++
      "\n\nRequired approvers: " ++ issueApproversText ++
      "\n\nRespond " ++ formatAcceptedWords approvedWords ++
      " to continue workflow or " ++ formatAcceptedWords deniedWords ++ " to cancel."
  let issueBody := if a.issueBody ≠ "" then a.issueBody ++ "\n\n" ++ issueBody else issueBody
  { Title := a.issueTitle, Body := issueBody, Assignees := assignees }

/-- Method `createApprovalIssue`; `create` stands for `a.client.Issues.Create`
and returns the issue and the error, and the printing is left out.  The
result is the updated environment and the returned error. -/
def createApprovalIssue {Client Err : Type}
    (create : Client → String → String → IssueRequest → Option Issue × Option Err)
    (githubBaseURL : String) (approvedWords deniedWords : List String)
    (a : approvalEnvironment Client) : approvalEnvironment Client × Option Err :=
  let result := create a.client a.repoOwner a.repo
    (a.issueRequest githubBaseURL approvedWords deniedWords)
  let a := { a with approvalIssue := result.1 }
  match result.2 with
  | some err => (a, some err)
  | none =>
    ({ a with approvalIssueNumber :=
        match a.approvalIssue with
        | some issue => issue.number
        | none => 0 }, none)

/-! ## Phrase characters -/

/-- The pattern characters that the parser does not read as a literal outside
brackets. -/
def isMetaChar (c : Char) : Bool :=
  ['(', '|', ')', '^', '$', '.', '[', '*', '+', '?', '{', '\\'].contains c

/-- Case-insensitive equality of a text character `x` with an ASCII phrase
character `a`, in the sense of Unicode simple case folding (Go's
`strings.EqualFold`): `x` is `a` itself, or `a` is a letter and `x` is its
lower or upper case, or `x` is the Kelvin sign U+212A and `a` is `k` or `K`,
or `x` is the long s U+017F and `a` is `s` or `S`. -/
def equalFold (a x : Char) : Prop :=
  x = a ∨ (a.isAlpha = true ∧ (x = a.toLower ∨ x = a.toUpper)) ∨
    ((a = 'k' ∨ a = 'K') ∧ x = Char.ofNat 0x212A) ∨
    ((a = 's' ∨ a = 'S') ∧ x = Char.ofNat 0x017F)

/-! ## Facts about `approversIndex` and the comment loop -/

section Loop

variable (R : RegexpPkg) (approvedWords deniedWords : List String)
  (approvers : List String) (minimumApprovals : Int) (disallowedUsers : List String)

/-- The index loop finds a name exactly when the name is in the slice. -/
theorem approversIndexFrom_nonneg_iff (idx : Nat) (l : List String) (name : String) :
    0 ≤ approversIndexFrom idx l name ↔ name ∈ l := by
  induction l generalizing idx with
  | nil => simp [approversIndexFrom]
  | cons a rest ih =>
    unfold approversIndexFrom
    by_cases h : a = name
    · simp [h]
    · have h2 : ¬ name = a := fun e => h e.symm
      simp [h, h2, ih]

/-- The test `approversIndex(l, name) >= 0` is membership. -/
theorem approversIndex_nonneg_iff (l : List String) (name : String) :
    approversIndex l name ≥ 0 ↔ name ∈ l :=
  approversIndexFrom_nonneg_iff 0 l name

/-- The test `approversIndex(l, name) < 0` is non-membership. -/
theorem approversIndex_neg_iff (l : List String) (name : String) :
    approversIndex l name < 0 ↔ name ∉ l := by
  rw [← approversIndex_nonneg_iff]
  exact not_le.symm

/-- The three guards of the loop body: a disallowed author, an author already
in the tally, or an author outside a non-empty `approvers` is skipped. -/
theorem commentStep_skip (approvals : List String) (c : IssueComment)
    (h : c.login ∈ disallowedUsers ∨ c.login ∈ approvals ∨
      (approvers ≠ [] ∧ c.login ∉ approvers)) :
    commentStep R approvedWords deniedWords approvers minimumApprovals disallowedUsers
      approvals c = .next approvals := by
  unfold commentStep
  simp only [approversIndex_nonneg_iff, approversIndex_neg_iff]
  by_cases h1 : c.login ∈ disallowedUsers
  · simp [h1]
  by_cases h2 : c.login ∈ approvals
  · simp [h2]
  rcases h with h | h | ⟨h3, h4⟩
  · exact absurd h h1
  · exact absurd h h2
  · have : approvers.length > 0 := List.length_pos.mpr h3
    simp [h1, h2, this, h4]

/-- Past the three guards the body of the comment is classified. -/
theorem commentStep_classify (approvals : List String) (c : IssueComment)
    (h1 : c.login ∉ disallowedUsers) (h2 : c.login ∉ approvals)
    (h3 : approvers ≠ [] → c.login ∈ approvers) :
    commentStep R approvedWords deniedWords approvers minimumApprovals disallowedUsers
      approvals c =
      match isApproved R approvedWords c.body with
      | (_, some err) => .done .pending (some err)
      | (true, none) =>
        if ((approvals ++ [c.login]).length : Int) ≥ minimumApprovals then .done .approved none
        else .next (approvals ++ [c.login])
      | (false, none) =>
        match isDenied R deniedWords c.body with
        | (_, some err) => .done .pending (some err)
        | (true, none) => .done .denied none
        | (false, none) => .next approvals := by
  unfold commentStep
  simp only [approversIndex_nonneg_iff, approversIndex_neg_iff]
  have h4 : ¬ (approvers.length > 0 ∧ c.login ∉ approvers) := by
    rintro ⟨ha, hb⟩
    exact hb (h3 (List.length_pos.mp ha))
  simp only [h1, h2, h4, if_false]

/-- The loop over `h ++ t` is the loop over `h`, continued over `t` unless it
returned. -/
theorem commentLoop_append (approvals : List String) (h t : List IssueComment) :
    commentLoop R approvedWords deniedWords approvers minimumApprovals disallowedUsers
      approvals (h ++ t) =
      match commentLoop R approvedWords deniedWords approvers minimumApprovals
          disallowedUsers approvals h with
      | .next a => commentLoop R approvedWords deniedWords approvers minimumApprovals
          disallowedUsers a t
      | .done status err => .done status err := by
  induction h generalizing approvals with
  | nil => simp [commentLoop]
  | cons c cs ih =>
    rw [List.cons_append]
    simp only [commentLoop]
    cases hstep : commentStep R approvedWords deniedWords approvers minimumApprovals
        disallowedUsers approvals c with
    | next a => exact ih a
    | done status err => rfl

/-- Comments that the loop body skips can be removed from the history. -/
theorem commentLoop_filter (keep : IssueComment → Bool)
    (hskip : ∀ (approvals : List String) (c : IssueComment), keep c = false →
      commentStep R approvedWords deniedWords approvers minimumApprovals disallowedUsers
        approvals c = .next approvals)
    (approvals : List String) (h : List IssueComment) :
    commentLoop R approvedWords deniedWords approvers minimumApprovals disallowedUsers
      approvals (h.filter keep) =
    commentLoop R approvedWords deniedWords approvers minimumApprovals disallowedUsers
      approvals h := by
  induction h generalizing approvals with
  | nil => rfl
  | cons c cs ih =>
    cases hk : keep c with
    | false =>
      rw [List.filter_cons_of_neg (by simp [hk])]
      simp only [commentLoop, hskip approvals c hk, ih]
    | true =>
      rw [List.filter_cons_of_pos hk]
      simp only [commentLoop]
      cases hstep : commentStep R approvedWords deniedWords approvers minimumApprovals
          disallowedUsers approvals c with
      | next a => exact ih a
      | done status err => rfl

end Loop

/-! ## Resolution claims -/

section Claims

variable (R : RegexpPkg) (approvedWords deniedWords : List String)

/-- Loop invariant behind C1: the tally holds distinct eligible authors, each
with an approving comment among the comments already read. -/
theorem commentLoop_approved_inv (approvers : List String) (minimumApprovals : Int)
    (disallowedUsers : List String) (seen : List IssueComment)
    (approvals : List String) (cs : List IssueComment) (err : Option Error)
    (hnodup : approvals.Nodup)
    (hinv : ∀ a ∈ approvals, eligible approvers disallowedUsers a ∧
      ∃ c ∈ seen, c.login = a ∧ isApproved R approvedWords c.body = (true, none))
    (hres : commentLoop R approvedWords deniedWords approvers minimumApprovals
      disallowedUsers approvals cs = .done .approved err) :
    ∃ authors : List String, authors.Nodup ∧ minimumApprovals ≤ (authors.length : Int) ∧
      ∀ a ∈ authors, eligible approvers disallowedUsers a ∧
        ∃ c ∈ seen ++ cs, c.login = a ∧ isApproved R approvedWords c.body = (true, none) := by
  induction cs generalizing approvals seen with
  | nil => simp [commentLoop] at hres
  | cons c cs ih =>
    have hseen : seen ++ c :: cs = (seen ++ [c]) ++ cs := by simp
    rw [hseen]
    have hmono : ∀ a ∈ approvals, eligible approvers disallowedUsers a ∧
        ∃ c0 ∈ seen ++ [c], c0.login = a ∧ isApproved R approvedWords c0.body = (true, none) := by
      intro a ha
      obtain ⟨h1, c0, hc0, h2⟩ := hinv a ha
      exact ⟨h1, c0, List.mem_append_left _ hc0, h2⟩
    simp only [commentLoop] at hres
    by_cases hskip : c.login ∈ disallowedUsers ∨ c.login ∈ approvals ∨
        (approvers ≠ [] ∧ c.login ∉ approvers)
    · rw [commentStep_skip _ _ _ _ _ _ _ _ hskip] at hres
      exact ih (seen ++ [c]) approvals hnodup hmono hres
    · simp only [not_or, not_and, not_not] at hskip
      obtain ⟨h1, h2, h3⟩ := hskip
      rw [commentStep_classify _ _ _ _ _ _ _ _ h1 h2 h3] at hres
      rcases hA : isApproved R approvedWords c.body with ⟨b, e⟩
      rw [hA] at hres
      cases e with
      | some e => simp at hres
      | none =>
        cases b with
        | true =>
          have hnodup2 : (approvals ++ [c.login]).Nodup := by
            rw [List.nodup_append]
            refine ⟨hnodup, List.nodup_singleton _, ?_⟩
            intro a ha hb
            rw [List.mem_singleton] at hb
            exact h2 (hb ▸ ha)
          have hinv2 : ∀ a ∈ approvals ++ [c.login], eligible approvers disallowedUsers a ∧
              ∃ c0 ∈ seen ++ [c], c0.login = a ∧
                isApproved R approvedWords c0.body = (true, none) := by
            intro a ha
            rcases List.mem_append.mp ha with ha | ha
            · exact hmono a ha
            · rw [List.mem_singleton] at ha
              subst ha
              exact ⟨⟨h1, h3⟩, c, by simp, rfl, hA⟩
          simp only at hres
          by_cases hge : ((approvals ++ [c.login]).length : Int) ≥ minimumApprovals
          · refine ⟨approvals ++ [c.login], hnodup2, hge, ?_⟩
            intro a ha
            obtain ⟨g1, c0, hc0, g2⟩ := hinv2 a ha
            exact ⟨g1, c0, List.mem_append_left _ hc0, g2⟩
          · rw [if_neg hge] at hres
            exact ih (seen ++ [c]) _ hnodup2 hinv2 hres
        | false =>
          simp only at hres
          rcases hD : isDenied R deniedWords c.body with ⟨b2, e2⟩
          rw [hD] at hres
          cases e2 with
          | some e => simp at hres
          | none =>
            cases b2 with
            | true => simp at hres
            | false => exact ih (seen ++ [c]) approvals hnodup hmono hres

/-- Claim C1: when `approvalFromComments` returns Approved, there is a list of
pairwise distinct authors, at least as many as the effective threshold
(`minimumApprovals` if nonzero, else `len(approvers)`), each an eligible
commenter and each the author of a comment of the history whose body
`isApproved` classifies as an approval. -/
theorem approved_has_threshold_many_approvers (comments : List IssueComment)
    (approvers : List String) (minimumApprovals : Int) (disallowedUsers : List String)
    (h : (approvalFromComments R approvedWords deniedWords comments approvers minimumApprovals
      disallowedUsers).1 = .approved) :
    ∃ authors : List String, authors.Nodup ∧
      effectiveMinimum approvers minimumApprovals ≤ (authors.length : Int) ∧
      ∀ a ∈ authors, eligible approvers disallowedUsers a ∧
        ∃ c ∈ comments, c.login = a ∧ isApproved R approvedWords c.body = (true, none) := by
  unfold approvalFromComments at h
  split at h
  · simp at h
  · cases hloop : commentLoop R approvedWords deniedWords approvers
        (effectiveMinimum approvers minimumApprovals) disallowedUsers [] comments with
    | next a => rw [hloop] at h; simp at h
    | done status err =>
      rw [hloop] at h
      simp only at h
      subst h
      have := commentLoop_approved_inv R approvedWords deniedWords approvers
        (effectiveMinimum approvers minimumApprovals) disallowedUsers [] [] comments err
        List.nodup_nil (by simp) hloop
      simpa using this

/-- Claim C3: short-circuit, prefix stability.  When `approvalFromComments`
returns a terminal status (Approved or Denied) without error on a history
`h`, it returns the same status without error on `h ++ t` for every `t`. -/
theorem terminal_status_prefix_stable (h t : List IssueComment)
    (approvers : List String) (minimumApprovals : Int) (disallowedUsers : List String)
    (status : approvalStatus) (hterm : status = .approved ∨ status = .denied)
    (hh : approvalFromComments R approvedWords deniedWords h approvers minimumApprovals
      disallowedUsers = (status, none)) :
    approvalFromComments R approvedWords deniedWords (h ++ t) approvers minimumApprovals
      disallowedUsers = (status, none) := by
  unfold approvalFromComments at hh ⊢
  split
  · rename_i hc; simp [hc] at hh
  · rename_i hc
    simp only [hc, if_false] at hh
    rw [commentLoop_append]
    cases hloop : commentLoop R approvedWords deniedWords approvers
        (effectiveMinimum approvers minimumApprovals) disallowedUsers [] h with
    | next a =>
      rw [hloop] at hh
      simp only [Prod.mk.injEq, and_true] at hh
      rcases hterm with e | e <;> rw [e] at hh <;> cases hh
    | done s e => rw [hloop] at hh; simpa using hh

/-- Claim C5: disallowed-user exclusion.  Removing from the history every
comment whose author is in `disallowedUsers` never changes the result of
`approvalFromComments`, whatever the bodies and whether or not the author is
also a required approver. -/
theorem disallowed_comments_never_count (h : List IssueComment)
    (approvers : List String) (minimumApprovals : Int) (disallowedUsers : List String) :
    approvalFromComments R approvedWords deniedWords
      (h.filter (fun c => decide (c.login ∉ disallowedUsers))) approvers minimumApprovals
      disallowedUsers =
    approvalFromComments R approvedWords deniedWords h approvers minimumApprovals
      disallowedUsers := by
  unfold approvalFromComments
  rw [commentLoop_filter]
  intro approvals c hc
  apply commentStep_skip
  left
  simpa using hc

/-- Claim C6: unauthorized-commenter exclusion.  With a non-empty `approvers`
list, removing from the history every comment whose author is not in
`approvers` never changes the result of `approvalFromComments`. -/
theorem unauthorized_comments_never_count (h : List IssueComment)
    (approvers : List String) (minimumApprovals : Int) (disallowedUsers : List String)
    (hne : approvers ≠ []) :
    approvalFromComments R approvedWords deniedWords
      (h.filter (fun c => decide (c.login ∈ approvers))) approvers minimumApprovals
      disallowedUsers =
    approvalFromComments R approvedWords deniedWords h approvers minimumApprovals
      disallowedUsers := by
  unfold approvalFromComments
  rw [commentLoop_filter]
  intro approvals c hc
  apply commentStep_skip
  right; right
  exact ⟨hne, by simpa using hc⟩

/-- The comment loop returns Pending from inside the loop only next to an
error. -/
theorem commentLoop_done_pending (approvers : List String) (minimumApprovals : Int)
    (disallowedUsers : List String) (approvals : List String) (cs : List IssueComment) :
    commentLoop R approvedWords deniedWords approvers minimumApprovals disallowedUsers
      approvals cs ≠ .done .pending none := by
  induction cs generalizing approvals with
  | nil => simp [commentLoop]
  | cons c cs ih =>
    simp only [commentLoop]
    by_cases hskip : c.login ∈ disallowedUsers ∨ c.login ∈ approvals ∨
        (approvers ≠ [] ∧ c.login ∉ approvers)
    · rw [commentStep_skip _ _ _ _ _ _ _ _ hskip]
      exact ih approvals
    · simp only [not_or, not_and, not_not] at hskip
      obtain ⟨h1, h2, h3⟩ := hskip
      rw [commentStep_classify _ _ _ _ _ _ _ _ h1 h2 h3]
      rcases hA : isApproved R approvedWords c.body with ⟨b, e⟩
      cases e with
      | some e => simp
      | none =>
        cases b with
        | true =>
          simp only
          by_cases hge : ((approvals ++ [c.login]).length : Int) ≥ minimumApprovals
          · rw [if_pos hge]; simp
          · rw [if_neg hge]; exact ih _
        | false =>
          simp only
          rcases hD : isDenied R deniedWords c.body with ⟨b2, e2⟩
          cases e2 with
          | some e => simp
          | none =>
            cases b2 with
            | true => simp
            | false => exact ih approvals

/-- Claim C2, amended: a denial by an eligible commenter who is not yet counted
as an approver is terminal.  For a history `p ++ [c] ++ t` where
`approvalFromComments` on `p` returns Pending without error, the author of
`c` is an eligible commenter and is not in the tally built from `p`, and the
body of `c` is classified as deny and not as approve, the result on the
whole history is Denied, whatever the threshold. -/
theorem eligible_denial_is_terminal (p : List IssueComment) (c : IssueComment)
    (t : List IssueComment) (approvers : List String) (minimumApprovals : Int)
    (disallowedUsers : List String)
    (hp : approvalFromComments R approvedWords deniedWords p approvers minimumApprovals
      disallowedUsers = (.pending, none))
    (helig : eligible approvers disallowedUsers c.login)
    (hnew : ∀ a, approvalsAfter R approvedWords deniedWords p approvers minimumApprovals
      disallowedUsers = some a → c.login ∉ a)
    (hA : isApproved R approvedWords c.body = (false, none))
    (hD : isDenied R deniedWords c.body = (true, none)) :
    approvalFromComments R approvedWords deniedWords (p ++ [c] ++ t) approvers
      minimumApprovals disallowedUsers = (.denied, none) := by
  unfold approvalFromComments at hp ⊢
  unfold approvalsAfter at hnew
  split
  · rename_i hc; simp [hc] at hp
  · rw [List.append_assoc, commentLoop_append]
    cases hloop : commentLoop R approvedWords deniedWords approvers
        (effectiveMinimum approvers minimumApprovals) disallowedUsers [] p with
    | next a =>
      rw [hloop] at hnew
      have hna : c.login ∉ a := hnew a rfl
      simp only [List.singleton_append, commentLoop]
      rw [commentStep_classify _ _ _ _ _ _ _ _ helig.1 hna helig.2, hA]
      simp only [hD]
    | done s e =>
      rename_i hc
      simp only [hc, if_false, hloop] at hp
      simp only [Prod.mk.injEq] at hp
      obtain ⟨rfl, rfl⟩ := hp
      exact absurd hloop (commentLoop_done_pending _ _ _ _ _ _ _ _)

/-- Loop invariant behind C7: with a single author the tally is empty or holds
that author only. -/
theorem commentLoop_single_author (approvers : List String) (minimumApprovals : Int)
    (disallowedUsers : List String) (u : String) (hmin : 2 ≤ minimumApprovals)
    (approvals : List String) (hinv : approvals = [] ∨ approvals = [u])
    (cs : List IssueComment) (hall : ∀ c ∈ cs, c.login = u) (e : Option Error) :
    commentLoop R approvedWords deniedWords approvers minimumApprovals disallowedUsers
      approvals cs ≠ .done .approved e := by
  induction cs generalizing approvals with
  | nil => simp [commentLoop]
  | cons c cs ih =>
    have hcu : c.login = u := hall c (by simp)
    have hall2 : ∀ c ∈ cs, c.login = u := fun c hc => hall c (List.mem_cons_of_mem _ hc)
    simp only [commentLoop]
    by_cases hskip : c.login ∈ disallowedUsers ∨ c.login ∈ approvals ∨
        (approvers ≠ [] ∧ c.login ∉ approvers)
    · rw [commentStep_skip _ _ _ _ _ _ _ _ hskip]
      exact ih approvals hinv hall2
    · simp only [not_or, not_and, not_not] at hskip
      obtain ⟨h1, h2, h3⟩ := hskip
      rw [commentStep_classify _ _ _ _ _ _ _ _ h1 h2 h3]
      rcases hA : isApproved R approvedWords c.body with ⟨b, e1⟩
      cases e1 with
      | some e1 => simp
      | none =>
        cases b with
        | true =>
          have hnil : approvals = [] := by
            rcases hinv with h | h
            · exact h
            · rw [h, hcu] at h2; simp at h2
          subst hnil
          have hlt : ¬ (([] ++ [c.login] : List String).length : Int) ≥ minimumApprovals := by
            simp only [List.nil_append, List.length_singleton]
            omega
          simp only
          rw [if_neg hlt]
          exact ih _ (Or.inr (by simp [hcu])) hall2
        | false =>
          simp only
          rcases hD : isDenied R deniedWords c.body with ⟨b2, e2⟩
          cases e2 with
          | some e2 => simp
          | none =>
            cases b2 with
            | true => simp
            | false => exact ih approvals hinv hall2

/-- Claim C7: idempotent counting.  When the effective threshold is at least 2
and all comments of the history are written by one author,
`approvalFromComments` does not return Approved: any number of approvals by
one author count once. -/
theorem single_author_never_reaches_two (comments : List IssueComment)
    (approvers : List String) (minimumApprovals : Int) (disallowedUsers : List String)
    (u : String) (hmin : 2 ≤ effectiveMinimum approvers minimumApprovals)
    (hall : ∀ c ∈ comments, c.login = u) :
    (approvalFromComments R approvedWords deniedWords comments approvers minimumApprovals
      disallowedUsers).1 ≠ .approved := by
  unfold approvalFromComments
  split
  · simp
  · cases hloop : commentLoop R approvedWords deniedWords approvers
        (effectiveMinimum approvers minimumApprovals) disallowedUsers [] comments with
    | next a => simp
    | done s e =>
      simp only
      rintro rfl
      exact commentLoop_single_author R approvedWords deniedWords approvers _ disallowedUsers u
        hmin [] (Or.inl rfl) comments hall e hloop

/-- Loop fact behind C8: approvals by distinct eligible authors not yet in the
tally, exactly as many as are still missing, end the loop with Approved. -/
theorem commentLoop_reaches_threshold (approvers : List String) (minimumApprovals : Int)
    (disallowedUsers : List String) (approvals : List String)
    (first rest : List IssueComment) (hne : first ≠ [])
    (hlen : ((approvals.length + first.length : Nat) : Int) = minimumApprovals)
    (hdistinct : (first.map (fun c => c.login)).Nodup)
    (hdisj : ∀ c ∈ first, c.login ∉ approvals)
    (helig : ∀ c ∈ first, eligible approvers disallowedUsers c.login)
    (happ : ∀ c ∈ first, isApproved R approvedWords c.body = (true, none)) :
    commentLoop R approvedWords deniedWords approvers minimumApprovals disallowedUsers
      approvals (first ++ rest) = .done .approved none := by
  induction first generalizing approvals with
  | nil => exact absurd rfl hne
  | cons c cs ih =>
    have hel := helig c (by simp)
    rw [List.cons_append]
    simp only [commentLoop]
    rw [commentStep_classify _ _ _ _ _ _ _ _ hel.1 (hdisj c (by simp)) hel.2,
      happ c (by simp)]
    simp only
    rw [List.map_cons, List.nodup_cons] at hdistinct
    by_cases hcs : cs = []
    · subst hcs
      have hge : ((approvals ++ [c.login]).length : Int) ≥ minimumApprovals := by
        rw [← hlen]; simp
      rw [if_pos hge]
    · have hpos : 0 < cs.length := List.length_pos.mpr hcs
      have hlen2 := hlen
      simp only [List.length_cons] at hlen2
      push_cast at hlen2
      have hlt : ¬ ((approvals ++ [c.login]).length : Int) ≥ minimumApprovals := by
        simp only [List.length_append, List.length_singleton]
        push_cast
        omega
      rw [if_neg hlt]
      apply ih _ hcs
      · simp only [List.length_append, List.length_singleton]
        push_cast
        omega
      · exact hdistinct.2
      · intro c2 hc2 hmem
        rcases List.mem_append.mp hmem with h | h
        · exact hdisj c2 (List.mem_cons_of_mem _ hc2) h
        · rw [List.mem_singleton] at h
          apply hdistinct.1
          rw [← h]
          exact List.mem_map_of_mem _ hc2
      · exact fun c2 hc2 => helig c2 (List.mem_cons_of_mem _ hc2)
      · exact fun c2 hc2 => happ c2 (List.mem_cons_of_mem _ hc2)

/-- Claim C8: threshold semantics.  With `minimumApprovals = m ≥ 1`, a history
that begins with `m` comments classified as approvals, written by `m`
pairwise distinct eligible authors, resolves to Approved without error
whatever comments follow. -/
theorem threshold_many_approvals_approve (m : Nat) (hm : 1 ≤ m)
    (first rest : List IssueComment) (approvers : List String)
    (disallowedUsers : List String)
    (hlen : first.length = m)
    (hdistinct : (first.map (fun c => c.login)).Nodup)
    (helig : ∀ c ∈ first, eligible approvers disallowedUsers c.login)
    (happ : ∀ c ∈ first, isApproved R approvedWords c.body = (true, none)) :
    approvalFromComments R approvedWords deniedWords (first ++ rest) approvers (m : Int)
      disallowedUsers = (.approved, none) := by
  have hm0 : ¬ ((m : Int) = 0) := by omega
  unfold approvalFromComments effectiveMinimum
  simp only [hm0, false_and, if_false]
  rw [commentLoop_reaches_threshold R approvedWords deniedWords approvers (m : Int)
    disallowedUsers [] first rest (by intro h; subst h; simp at hlen; omega)
    (by simp [hlen]) hdistinct (by simp) helig happ]

/-- A duplicate-free sublist of `approvers` that is as long as `approvers`
holds every approver. -/
theorem subset_of_nodup_of_length_le (l approvers : List String) (hl : l.Nodup)
    (hsub : l ⊆ approvers) (hlen : approvers.length ≤ l.length) : approvers ⊆ l :=
  ((List.subperm_of_subset hl hsub).perm_of_length_le hlen).symm.subset

/-- A list shorter than the duplicate-free `approvers` misses an approver. -/
theorem exists_not_mem_of_length_lt (l approvers : List String) (ha : approvers.Nodup)
    (hlen : l.length < approvers.length) : ∃ a ∈ approvers, a ∉ l := by
  by_contra hcon
  push_neg at hcon
  have := (List.subperm_of_subset ha hcon).length_le
  omega

/-- Loop invariant behind C9: without denials and errors the loop either ends
with Approved, and then every approver is in the tally or approves later,
or runs through with a tally that is still short and holds every approver
who approved. -/
theorem commentLoop_all_approvers (approvers : List String) (disallowedUsers : List String)
    (hne : approvers ≠ [])
    (hdisj : ∀ a ∈ approvers, a ∉ disallowedUsers)
    (cs : List IssueComment) (approvals : List String)
    (hA : ∀ c ∈ cs, (isApproved R approvedWords c.body).2 = none)
    (hD : ∀ c ∈ cs, isDenied R deniedWords c.body = (false, none))
    (hacc : approvals.Nodup) (hsub : approvals ⊆ approvers)
    (hlen : approvals.length < approvers.length) :
    (commentLoop R approvedWords deniedWords approvers (approvers.length : Int)
        disallowedUsers approvals cs = .done .approved none ∧
      ∀ a ∈ approvers, a ∈ approvals ∨
        ∃ c ∈ cs, c.login = a ∧ isApproved R approvedWords c.body = (true, none)) ∨
    (∃ final, commentLoop R approvedWords deniedWords approvers (approvers.length : Int)
        disallowedUsers approvals cs = .next final ∧
      final.length < approvers.length ∧
      ∀ a ∈ approvers, (a ∈ approvals ∨
        ∃ c ∈ cs, c.login = a ∧ isApproved R approvedWords c.body = (true, none)) →
        a ∈ final) := by
  induction cs generalizing approvals with
  | nil =>
    right
    refine ⟨approvals, rfl, hlen, ?_⟩
    intro a _ h
    rcases h with h | ⟨c, hc, _⟩
    · exact h
    · simp at hc
  | cons c cs ih =>
    have hA2 : ∀ c ∈ cs, (isApproved R approvedWords c.body).2 = none :=
      fun c2 h => hA c2 (List.mem_cons_of_mem _ h)
    have hD2 : ∀ c ∈ cs, isDenied R deniedWords c.body = (false, none) :=
      fun c2 h => hD c2 (List.mem_cons_of_mem _ h)
    simp only [commentLoop]
    by_cases hskip : c.login ∈ disallowedUsers ∨ c.login ∈ approvals ∨
        (approvers ≠ [] ∧ c.login ∉ approvers)
    · rw [commentStep_skip _ _ _ _ _ _ _ _ hskip]
      rcases ih approvals hA2 hD2 hacc hsub hlen with ⟨h1, h2⟩ | ⟨final, h1, h2, h3⟩
      · left
        refine ⟨h1, fun a ha => ?_⟩
        rcases h2 a ha with h | ⟨c2, hc2, h⟩
        · exact Or.inl h
        · exact Or.inr ⟨c2, List.mem_cons_of_mem _ hc2, h⟩
      · right
        refine ⟨final, h1, h2, fun a ha h => ?_⟩
        apply h3 a ha
        rcases h with h | ⟨c2, hc2, hlog, happ⟩
        · exact Or.inl h
        · rcases List.mem_cons.mp hc2 with heq | hmem
          · subst heq
            rcases hskip with hs | hs | hs
            · exact absurd hs (hlog ▸ hdisj a ha)
            · exact Or.inl (hlog ▸ hs)
            · exact absurd (hlog ▸ ha) hs.2
          · exact Or.inr ⟨c2, hmem, hlog, happ⟩
    · simp only [not_or, not_and, not_not] at hskip
      obtain ⟨g1, g2, g3⟩ := hskip
      rw [commentStep_classify _ _ _ _ _ _ _ _ g1 g2 g3]
      have hAc := hA c (by simp)
      rcases hAb : isApproved R approvedWords c.body with ⟨b, e⟩
      rw [hAb] at hAc
      simp only at hAc
      subst hAc
      cases b with
      | true =>
        simp only
        have hacc2 : (approvals ++ [c.login]).Nodup := by
          rw [List.nodup_append]
          refine ⟨hacc, List.nodup_singleton _, ?_⟩
          intro a ha hb
          rw [List.mem_singleton] at hb
          exact g2 (hb ▸ ha)
        have hsub2 : approvals ++ [c.login] ⊆ approvers := by
          intro a ha
          rcases List.mem_append.mp ha with h | h
          · exact hsub h
          · rw [List.mem_singleton] at h
            exact h ▸ g3 hne
        by_cases hge : ((approvals ++ [c.login]).length : Int) ≥ (approvers.length : Int)
        · rw [if_pos hge]
          left
          refine ⟨rfl, fun a ha => ?_⟩
          have hall := subset_of_nodup_of_length_le _ _ hacc2 hsub2 (by exact_mod_cast hge)
          rcases List.mem_append.mp (hall ha) with h | h
          · exact Or.inl h
          · rw [List.mem_singleton] at h
            exact Or.inr ⟨c, by simp, h.symm, hAb⟩
        · rw [if_neg hge]
          have hlen2 : (approvals ++ [c.login]).length < approvers.length := by
            have : ¬ (approvers.length ≤ (approvals ++ [c.login]).length) := by
              intro h; exact hge (by exact_mod_cast h)
            omega
          rcases ih _ hA2 hD2 hacc2 hsub2 hlen2 with ⟨h1, h2⟩ | ⟨final, h1, h2, h3⟩
          · left
            refine ⟨h1, fun a ha => ?_⟩
            rcases h2 a ha with h | ⟨c2, hc2, h⟩
            · rcases List.mem_append.mp h with h | h
              · exact Or.inl h
              · rw [List.mem_singleton] at h
                exact Or.inr ⟨c, by simp, h.symm, hAb⟩
            · exact Or.inr ⟨c2, List.mem_cons_of_mem _ hc2, h⟩
          · right
            refine ⟨final, h1, h2, fun a ha h => ?_⟩
            apply h3 a ha
            rcases h with h | ⟨c2, hc2, hlog, happ⟩
            · exact Or.inl (List.mem_append_left _ h)
            · rcases List.mem_cons.mp hc2 with heq | hmem
              · subst heq
                exact Or.inl (List.mem_append_right _ (by simp [hlog]))
              · exact Or.inr ⟨c2, hmem, hlog, happ⟩
      | false =>
        simp only
        rw [hD c (by simp)]
        simp only
        rcases ih approvals hA2 hD2 hacc hsub hlen with ⟨h1, h2⟩ | ⟨final, h1, h2, h3⟩
        · left
          refine ⟨h1, fun a ha => ?_⟩
          rcases h2 a ha with h | ⟨c2, hc2, h⟩
          · exact Or.inl h
          · exact Or.inr ⟨c2, List.mem_cons_of_mem _ hc2, h⟩
        · right
          refine ⟨final, h1, h2, fun a ha h => ?_⟩
          apply h3 a ha
          rcases h with h | ⟨c2, hc2, hlog, happ⟩
          · exact Or.inl h
          · rcases List.mem_cons.mp hc2 with heq | hmem
            · subst heq
              rw [hAb] at happ
              simp at happ
            · exact Or.inr ⟨c2, hmem, hlog, happ⟩

/-- Claim C9: with `minimumApprovals = 0` the threshold is all of `approvers`.
For a non-empty duplicate-free `approvers` list disjoint from
`disallowedUsers` and a history in which no comment is classified as deny
(and classification raises no error), `approvalFromComments` returns
Approved if and only if every required approver wrote a comment classified
as approve, and returns Pending otherwise. -/
theorem zero_minimum_needs_all_approvers (comments : List IssueComment)
    (approvers : List String) (disallowedUsers : List String)
    (hne : approvers ≠ []) (hnodup : approvers.Nodup)
    (hdisj : ∀ a ∈ approvers, a ∉ disallowedUsers)
    (hA : ∀ c ∈ comments, (isApproved R approvedWords c.body).2 = none)
    (hD : ∀ c ∈ comments, isDenied R deniedWords c.body = (false, none)) :
    (approvalFromComments R approvedWords deniedWords comments approvers 0 disallowedUsers =
        (.approved, none) ↔
      ∀ a ∈ approvers, ∃ c ∈ comments, c.login = a ∧
        isApproved R approvedWords c.body = (true, none)) ∧
    ((¬ ∀ a ∈ approvers, ∃ c ∈ comments, c.login = a ∧
        isApproved R approvedWords c.body = (true, none)) →
      approvalFromComments R approvedWords deniedWords comments approvers 0 disallowedUsers =
        (.pending, none)) := by
  have hlen0 : ¬ (approvers.length = 0) := fun h => hne (List.length_eq_zero.mp h)
  have hres : approvalFromComments R approvedWords deniedWords comments approvers 0
      disallowedUsers =
      match commentLoop R approvedWords deniedWords approvers (approvers.length : Int)
        disallowedUsers [] comments with
      | .done status err => (status, err)
      | .next _ => (.pending, none) := by
    unfold approvalFromComments effectiveMinimum
    simp only [hlen0, and_false, if_false, if_true]
  rw [hres]
  rcases commentLoop_all_approvers R approvedWords deniedWords approvers disallowedUsers hne
      hdisj comments [] hA hD List.nodup_nil (by simp)
      (by simpa using List.length_pos.mpr hne) with ⟨h1, h2⟩ | ⟨final, h1, h2, h3⟩
  · have hall : ∀ a ∈ approvers, ∃ c ∈ comments, c.login = a ∧
        isApproved R approvedWords c.body = (true, none) := by
      intro a ha
      rcases h2 a ha with h | h
      · simp at h
      · exact h
    rw [h1]
    exact ⟨⟨fun _ => hall, fun _ => rfl⟩, fun hn => absurd hall hn⟩
  · obtain ⟨a, ha, hna⟩ := exists_not_mem_of_length_lt final approvers hnodup h2
    have hnot : ¬ ∀ a ∈ approvers, ∃ c ∈ comments, c.login = a ∧
        isApproved R approvedWords c.body = (true, none) :=
      fun hall => hna (h3 a ha (Or.inr (hall a ha)))
    rw [h1]
    refine ⟨⟨fun h => ?_, fun hall => absurd hall hnot⟩, fun _ => rfl⟩
    simp at h

end Claims

/-! ## Facts about the modelled `regexp` package -/

section RegexpFacts

/-- ASCII letters and digits by code point. -/
theorem alnum_toNat (c : Char) (h : c.isAlphanum = true) :
    (65 ≤ c.toNat ∧ c.toNat ≤ 90) ∨ (97 ≤ c.toNat ∧ c.toNat ≤ 122) ∨
      (48 ≤ c.toNat ∧ c.toNat ≤ 57) := by
  simp only [Char.isAlphanum, Char.isAlpha, Char.isUpper, Char.isLower, Char.isDigit,
    Bool.or_eq_true, Bool.and_eq_true, decide_eq_true_eq] at h
  simp only [UInt32.le_def, Char.toNat] at *
  rcases h with (h | h) | h
  · left; exact h
  · right; left; exact h
  · right; right; exact h

/-- In normal mode a letter or digit is pushed as a literal. -/
theorem step_alnum (st : ParserState) (c : Char) (hmode : st.mode = .normal)
    (h : c.isAlphanum = true) :
    st.step c = .ok (st.push (.literal c st.flags.foldCase)) := by
  have hn := alnum_toNat c h
  have h128 : ¬ c.toNat ≥ 128 := by omega
  have e1 : c ≠ '(' := by rintro rfl; revert h; decide
  have e2 : c ≠ '|' := by rintro rfl; revert h; decide
  have e3 : c ≠ ')' := by rintro rfl; revert h; decide
  have e4 : c ≠ '^' := by rintro rfl; revert h; decide
  have e5 : c ≠ '$' := by rintro rfl; revert h; decide
  have e6 : c ≠ '.' := by rintro rfl; revert h; decide
  have e7 : c ≠ '[' := by rintro rfl; revert h; decide
  have e8 : c ≠ '*' := by rintro rfl; revert h; decide
  have e9 : c ≠ '+' := by rintro rfl; revert h; decide
  have e10 : c ≠ '?' := by rintro rfl; revert h; decide
  have e11 : c ≠ '{' := by rintro rfl; revert h; decide
  have e12 : c ≠ '\\' := by rintro rfl; revert h; decide
  unfold ParserState.step
  simp only [h128, if_false, hmode]
  unfold ParserState.stepNormal
  simp only [e1, e2, e3, e4, e5, e6, e7, e8, e9, e10, e11, e12, if_false]

/-- Reading `a ++ b` is reading `a`, then `b`. -/
theorem run_append (st : ParserState) (a b : List Char) :
    st.run (a ++ b) =
      match st.run a with
      | .error e => .error e
      | .ok st2 => st2.run b := by
  induction a generalizing st with
  | nil => rfl
  | cons c cs ih =>
    rw [List.cons_append]
    simp only [ParserState.run]
    cases hstep : st.step c with
    | error e => rfl
    | ok st2 => exact ih st2

/-- A run of letters and digits is pushed as literals. -/
theorem run_alnum (fl : Flags) (items alts : List Regex) (frames : List Frame)
    (cs : List Char) (h : ∀ c ∈ cs, c.isAlphanum = true) :
    ParserState.run ⟨fl, items, alts, frames, .none, .normal⟩ cs =
      .ok ⟨fl, (cs.map (fun c => Regex.literal c fl.foldCase)).reverse ++ items, alts, frames,
        .none, .normal⟩ := by
  induction cs generalizing items with
  | nil => rfl
  | cons c cs ih =>
    simp only [ParserState.run]
    rw [step_alnum _ c rfl (h c (by simp))]
    simp only [ParserState.push]
    rw [ih _ (fun c2 hc2 => h c2 (List.mem_cons_of_mem _ hc2))]
    simp

/-- The parser on the fixed end of the word pattern, `[.!]*\n*\s*$`. -/
theorem run_tail (items : List Regex) :
    ParserState.run ⟨⟨true, true, false, false⟩, items, [], [], .none, .normal⟩
        ['[', '.', '!', ']', '*', '\n', '*', '\\', 's', '*', '$'] =
      .ok ⟨⟨true, true, false, false⟩,
        .endText :: .star (.charClass true false [.perl .space false]) ::
          .star (.literal '\n' true) ::
          .star (.charClass true false [.range '.' '.', .range '!' '!']) :: items,
        [], [], .none, .normal⟩ := by
  rfl

/-- The pattern of a word of letters and digits parses, to `wordRegex`. -/
theorem parse_wordPattern (word : String) (h : ∀ c ∈ word.toList, c.isAlphanum = true) :
    parseChars (wordPattern word).toList = .ok (wordRegex word.toList) := by
  have h0 : ParserState.init.run ['(', '?', 'i', ')', '^'] =
      .ok ⟨⟨true, true, false, false⟩, [.beginText], [], [], .none, .normal⟩ := rfl
  unfold parseChars wordPattern
  simp only [String.toList, String.data_append, List.append_assoc] at h ⊢
  rw [run_append, h0]
  simp only
  rw [run_append, run_alnum _ _ _ _ _ h]
  simp only
  rw [run_tail]
  simp only [ParserState.finish, altOf, concatOf, List.foldl_nil, wordRegex, tailRegex]
  rw [← List.map_reverse, List.foldl_cons, List.foldl_cons, List.foldl_cons,
    List.foldl_append, List.foldl_cons, List.foldl_nil, List.foldl_map, List.foldl_reverse]

/-- The pattern of a word of letters and digits compiles. -/
theorem compile_wordPattern (word : String) (h : ∀ c ∈ word.toList, c.isAlphanum = true) :
    goRegexp.Compile (wordPattern word) = .ok (wordRegex word.toList) :=
  parse_wordPattern word h

/-- Cutting `a ++ b` after `a` is one of its splits. -/
theorem mem_splits (a b : List Char) : (a, b) ∈ splits (a ++ b) := by
  induction a with
  | nil => cases b <;> simp [splits]
  | cons c cs ih =>
    rw [List.cons_append]
    simp only [splits, List.mem_cons, List.mem_map]
    right
    exact ⟨(cs, b), ih, rfl⟩

/-- A concatenation matches `a ++ b` when its parts match `a` and `b`. -/
theorem matchAt_concat (left right : Regex) (pre a b post : List Char)
    (hl : left.matchAt pre a (b ++ post) = true)
    (hr : right.matchAt (pre ++ a) b post = true) :
    (Regex.concat left right).matchAt pre (a ++ b) post = true := by
  simp only [Regex.matchAt, List.any_eq_true, Bool.and_eq_true]
  exact ⟨(a, b), mem_splits a b, hl, hr⟩

/-- A repetition matches a text all of whose characters its body matches. -/
theorem starMatch_chars (m : List Char → List Char → List Char → Bool) (s : List Char)
    (hm : ∀ x ∈ s, ∀ pre post, m pre [x] post = true) (fuel : Nat) (hfuel : s.length ≤ fuel)
    (pre post : List Char) : starMatch m fuel pre s post = true := by
  induction s generalizing fuel pre with
  | nil => cases fuel <;> simp [starMatch]
  | cons x xs ih =>
    cases fuel with
    | zero => simp at hfuel
    | succ k =>
      simp only [starMatch, Bool.or_eq_true, List.any_eq_true, Bool.and_eq_true]
      right
      refine ⟨([x], xs), mem_splits [x] xs, ⟨by simp, hm x (by simp) _ _⟩, ?_⟩
      exact ih (fun y hy => hm y (List.mem_cons_of_mem _ hy)) k
        (by simpa using hfuel) _

/-- A starred expression matches a text all of whose characters its body
matches. -/
theorem matchAt_star_chars (sub : Regex) (s : List Char)
    (hm : ∀ x ∈ s, ∀ pre post, sub.matchAt pre [x] post = true) (pre post : List Char) :
    (Regex.star sub).matchAt pre s post = true := by
  simp only [Regex.matchAt]
  exact starMatch_chars _ s hm _ (le_refl _) _ _

/-- The end of the word pattern matches `.`/`!` marks followed by characters
of `\s`, up to the end of the text. -/
theorem matchAt_tail (pre p s : List Char)
    (hp : ∀ c ∈ p, c = '.' ∨ c = '!')
    (hs : ∀ c ∈ s, c = ' ' ∨ c = '\t' ∨ c = '\n' ∨ c = Char.ofNat 12 ∨ c = '\r') :
    tailRegex.matchAt pre (p ++ s) [] = true := by
  unfold tailRegex
  apply matchAt_concat
  · apply matchAt_star_chars
    intro x hx _ _
    rcases hp x hx with rfl | rfl <;> rfl
  · have e1 : s = [] ++ s := rfl
    rw [e1]
    apply matchAt_concat
    · simp [Regex.matchAt, starMatch]
    · have e2 : s = s ++ [] := by simp
      rw [e2]
      apply matchAt_concat
      · apply matchAt_star_chars
        intro x hx _ _
        rcases hs x hx with rfl | rfl | rfl | rfl | rfl <;> rfl
      · simp [Regex.matchAt]

/-- A chain of case-folding literals matches a text that matches it character
by character, followed by what the rest of the expression matches. -/
theorem matchAt_literals (w w2 : List Char)
    (hF : List.Forall₂ (fun a b => literalMatches true a b = true) w w2)
    (tail : Regex) (pre rest post : List Char)
    (ht : tail.matchAt (pre ++ w2) rest post = true) :
    (w.foldr (fun c acc => Regex.concat (.literal c true) acc) tail).matchAt pre
      (w2 ++ rest) post = true := by
  induction hF generalizing pre with
  | nil => simpa using ht
  | @cons a b l1 l2 hab _ ih =>
    simp only [List.foldr_cons]
    have e : b :: l2 ++ rest = [b] ++ (l2 ++ rest) := rfl
    rw [e]
    apply matchAt_concat
    · simpa [Regex.matchAt] using hab
    · apply ih
      simpa using ht

/-- Under case folding an ASCII letter matches both of its cases. -/
theorem recase_matches (a b : Char) (ha : a.isAlpha = true)
    (hb : b = a.toLower ∨ b = a.toUpper) : literalMatches true a b = true := by
  have hn : (65 ≤ a.toNat ∧ a.toNat ≤ 90) ∨ (97 ≤ a.toNat ∧ a.toNat ≤ 122) := by
    simp only [Char.isAlpha, Char.isUpper, Char.isLower,
      Bool.or_eq_true, Bool.and_eq_true, decide_eq_true_eq] at ha
    simp only [UInt32.le_def, Char.toNat] at *
    exact ha
  have ha2 : a = Char.ofNat a.toNat := (Char.ofNat_toNat a).symm
  generalize a.toNat = n at hn ha2
  subst ha2
  rcases hn with ⟨h1, h2⟩ | ⟨h1, h2⟩ <;> interval_cases n <;> rcases hb with rfl | rfl <;>
    decide

/-- A match of the whole text is a match somewhere in the text. -/
theorem matchChars_of_whole (re : Regex) (text : List Char)
    (h : re.matchAt [] text [] = true) : re.matchChars text = true := by
  simp only [Regex.matchChars, List.any_eq_true]
  refine ⟨([], text), mem_splits [] text, (text, []), ?_, h⟩
  have := mem_splits text []
  simpa using this

/-- A re-casing of a word of letters matches it letter by letter. -/
theorem recase_forall (w w2 : List Char) (hletters : ∀ c ∈ w, c.isAlpha = true)
    (hcase : List.Forall₂ (fun a b => b = a.toLower ∨ b = a.toUpper) w w2) :
    List.Forall₂ (fun a b => literalMatches true a b = true) w w2 := by
  induction hcase with
  | nil => exact List.Forall₂.nil
  | @cons a b l1 l2 hab _ ih =>
    exact List.Forall₂.cons (recase_matches a b (hletters a (by simp)) hab)
      (ih (fun c hc => hletters c (List.mem_cons_of_mem _ hc)))

/-- The compiled pattern of a word of letters matches every re-casing of the
word followed by `.`/`!` marks and then characters of `\s`. -/
theorem wordRegex_matches (w w2 p s : List Char)
    (hletters : ∀ c ∈ w, c.isAlpha = true)
    (hcase : List.Forall₂ (fun a b => b = a.toLower ∨ b = a.toUpper) w w2)
    (hp : ∀ c ∈ p, c = '.' ∨ c = '!')
    (hs : ∀ c ∈ s, c = ' ' ∨ c = '\t' ∨ c = '\n' ∨ c = Char.ofNat 12 ∨ c = '\r') :
    (wordRegex w).matchChars (w2 ++ p ++ s) = true := by
  apply matchChars_of_whole
  unfold wordRegex
  have e : w2 ++ p ++ s = [] ++ (w2 ++ (p ++ s)) := by simp
  rw [e]
  apply matchAt_concat
  · simp [Regex.matchAt]
  · apply matchAt_literals
    · exact recase_forall w w2 hletters hcase
    · exact matchAt_tail _ p s hp hs

end RegexpFacts

/-! ## Classification -/

section Classify

variable (R : RegexpPkg)

/-- With a vocabulary that compiles, a body matched by the pattern of one of
its words is classified as an approval. -/
theorem isApproved_of_match (words : List String) (w body : String)
    (hvoc : ∀ v ∈ words, ∃ re, R.Compile (wordPattern v) = .ok re)
    (hw : w ∈ words) (re : R.Regexp) (hc : R.Compile (wordPattern w) = .ok re)
    (hm : R.MatchString re body = true) :
    isApproved R words body = (true, none) := by
  induction words with
  | nil => simp at hw
  | cons v rest ih =>
    obtain ⟨rv, hrv⟩ := hvoc v (by simp)
    unfold isApproved
    simp only [hrv]
    by_cases hmv : R.MatchString rv body = true
    · simp [hmv]
    · simp only [hmv, if_false]
      rcases List.mem_cons.mp hw with rfl | hmem
      · rw [hc] at hrv
        cases hrv
        exact absurd hm hmv
      · exact ih (fun v2 h2 => hvoc v2 (List.mem_cons_of_mem _ h2)) hmem

/-- Both classifiers run the same code on their vocabulary. -/
theorem isDenied_eq_isApproved (words : List String) (body : String) :
    isDenied R words body = isApproved R words body := by
  induction words with
  | nil => rfl
  | cons v rest ih =>
    unfold isDenied isApproved
    rw [ih]

/-- With a vocabulary that compiles, `isApproved` returns no error. -/
theorem isApproved_no_error (words : List String) (body : String)
    (hvoc : ∀ v ∈ words, ∃ re, R.Compile (wordPattern v) = .ok re) :
    (isApproved R words body).2 = none := by
  induction words with
  | nil => rfl
  | cons v rest ih =>
    obtain ⟨rv, hrv⟩ := hvoc v (by simp)
    unfold isApproved
    simp only [hrv]
    by_cases hmv : R.MatchString rv body = true
    · simp [hmv]
    · simp only [hmv, if_false]
      exact ih (fun v2 h2 => hvoc v2 (List.mem_cons_of_mem _ h2))

end Classify

/-- Claim C10: case-insensitivity and tolerance of trailing punctuation.  For a
vocabulary that compiles and a word `w` of ASCII letters in it, every
re-casing `w2` of `w`, every string `p` of `.` and `!` characters and every
string `s` of whitespace characters (space, tab, newline, form feed,
carriage return: the class `\s` of the pattern), `isApproved` returns true
without error on `w2 ++ p ++ s`; the same holds for `isDenied`. -/
theorem recased_word_with_trailing_marks (words : List String) (w w2 p s : String)
    (hvoc : ∀ v ∈ words, ∃ re, goRegexp.Compile (wordPattern v) = .ok re)
    (hw : w ∈ words) (hletters : ∀ c ∈ w.toList, c.isAlpha = true)
    (hcase : List.Forall₂ (fun a b => b = a.toLower ∨ b = a.toUpper) w.toList w2.toList)
    (hp : ∀ c ∈ p.toList, c = '.' ∨ c = '!')
    (hs : ∀ c ∈ s.toList,
      c = ' ' ∨ c = '\t' ∨ c = '\n' ∨ c = Char.ofNat 12 ∨ c = '\r') :
    isApproved goRegexp words (w2 ++ p ++ s) = (true, none) ∧
      isDenied goRegexp words (w2 ++ p ++ s) = (true, none) := by
  have halnum : ∀ c ∈ w.toList, c.isAlphanum = true := by
    intro c hc
    simp [Char.isAlphanum, hletters c hc]
  have hmatch : goRegexp.MatchString (wordRegex w.toList) (w2 ++ p ++ s) = true := by
    show (wordRegex w.toList).matchChars (w2 ++ p ++ s).toList = true
    simp only [String.toList, String.data_append] at *
    exact wordRegex_matches _ _ _ _ hletters hcase hp hs
  have hA := isApproved_of_match goRegexp words w (w2 ++ p ++ s) hvoc hw _
    (compile_wordPattern w halnum) hmatch
  exact ⟨hA, by rw [isDenied_eq_isApproved]; exact hA⟩

/-- The vocabulary `approve`, `approved` compiles. -/
theorem approve_vocabulary_compiles :
    ∀ v ∈ ["approve", "approved"], ∃ re, goRegexp.Compile (wordPattern v) = .ok re := by
  intro v hv
  simp only [List.mem_cons, List.mem_singleton, List.not_mem_nil, or_false] at hv
  rcases hv with rfl | rfl
  · exact ⟨_, compile_wordPattern _ (by decide)⟩
  · exact ⟨_, compile_wordPattern _ (by decide)⟩

/-- Witness for C10: the bodies `approve`, `Approve!` and `APPROVED.` followed
by a newline, with `approve` and `approved` in the vocabulary. -/
theorem recased_word_with_trailing_marks_witness :
    isApproved goRegexp ["approve", "approved"] ("approve" ++ "" ++ "") = (true, none) ∧
      isApproved goRegexp ["approve", "approved"] ("Approve" ++ "!" ++ "") = (true, none) ∧
      isApproved goRegexp ["approve", "approved"] ("APPROVED" ++ "." ++ "\n") = (true, none) :=
  ⟨(recased_word_with_trailing_marks ["approve", "approved"] "approve" "approve" "" ""
      approve_vocabulary_compiles (by simp) (by decide) (by simp) (by decide) (by decide)).1,
    (recased_word_with_trailing_marks ["approve", "approved"] "approve" "Approve" "!" ""
      approve_vocabulary_compiles (by simp) (by decide) (by simp) (by decide) (by decide)).1,
    (recased_word_with_trailing_marks ["approve", "approved"] "approved" "APPROVED" "." "\n"
      approve_vocabulary_compiles (by simp) (by decide) (by simp) (by decide) (by decide)).1⟩

/-! ## Errors, witnesses and counterexamples -/

section Errors

variable (R : RegexpPkg) (approvedWords deniedWords : List String)

/-- When neither classifier raises an error, the comment loop returns none. -/
theorem commentLoop_no_error (approvers : List String) (minimumApprovals : Int)
    (disallowedUsers : List String)
    (hA : ∀ body, (isApproved R approvedWords body).2 = none)
    (hD : ∀ body, (isDenied R deniedWords body).2 = none)
    (approvals : List String) (cs : List IssueComment) (status : approvalStatus)
    (err : Option Error)
    (hres : commentLoop R approvedWords deniedWords approvers minimumApprovals
      disallowedUsers approvals cs = .done status err) : err = none := by
  induction cs generalizing approvals with
  | nil => simp [commentLoop] at hres
  | cons c cs ih =>
    simp only [commentLoop] at hres
    by_cases hskip : c.login ∈ disallowedUsers ∨ c.login ∈ approvals ∨
        (approvers ≠ [] ∧ c.login ∉ approvers)
    · rw [commentStep_skip _ _ _ _ _ _ _ _ hskip] at hres
      exact ih approvals hres
    · simp only [not_or, not_and, not_not] at hskip
      obtain ⟨h1, h2, h3⟩ := hskip
      rw [commentStep_classify _ _ _ _ _ _ _ _ h1 h2 h3] at hres
      have hAc := hA c.body
      have hDc := hD c.body
      rcases hAb : isApproved R approvedWords c.body with ⟨b, e⟩
      rw [hAb] at hAc hres
      simp only at hAc
      subst hAc
      cases b with
      | true =>
        simp only at hres
        by_cases hge : ((approvals ++ [c.login]).length : Int) ≥ minimumApprovals
        · rw [if_pos hge] at hres
          cases hres
          rfl
        · rw [if_neg hge] at hres
          exact ih _ hres
      | false =>
        simp only at hres
        rcases hDb : isDenied R deniedWords c.body with ⟨b2, e2⟩
        rw [hDb] at hDc hres
        simp only at hDc
        subst hDc
        cases b2 with
        | true => cases hres; rfl
        | false => exact ih approvals hres

end Errors

/-- Claim C4: with vocabularies of plain ASCII letters and digits (which
compile), `approvalFromComments` returns an error if and only if
`minimumApprovals = 0` and `approvers` is empty, for every history and every
`disallowedUsers`; and with any other configuration the empty history gives
Pending without error. -/
theorem error_iff_no_threshold (approvedWords deniedWords : List String)
    (hA : ∀ w ∈ approvedWords, ∀ c ∈ w.toList, c.isAlphanum = true)
    (hD : ∀ w ∈ deniedWords, ∀ c ∈ w.toList, c.isAlphanum = true)
    (comments : List IssueComment) (approvers : List String) (minimumApprovals : Int)
    (disallowedUsers : List String) :
    ((approvalFromComments goRegexp approvedWords deniedWords comments approvers
        minimumApprovals disallowedUsers).2 ≠ none ↔
      (minimumApprovals = 0 ∧ approvers = [])) ∧
    (¬ (minimumApprovals = 0 ∧ approvers = []) →
      approvalFromComments goRegexp approvedWords deniedWords [] approvers minimumApprovals
        disallowedUsers = (.pending, none)) := by
  have hA2 : ∀ body, (isApproved goRegexp approvedWords body).2 = none := fun body =>
    isApproved_no_error goRegexp approvedWords body
      (fun v hv => ⟨_, compile_wordPattern v (hA v hv)⟩)
  have hD2 : ∀ body, (isDenied goRegexp deniedWords body).2 = none := fun body => by
    rw [isDenied_eq_isApproved]
    exact isApproved_no_error goRegexp deniedWords body
      (fun v hv => ⟨_, compile_wordPattern v (hD v hv)⟩)
  constructor
  · unfold approvalFromComments
    by_cases hc : minimumApprovals = 0 ∧ approvers.length = 0
    · simp only [hc, and_self, if_true]
      simp [List.length_eq_zero.mp hc.2, hc.1]
    · have hc2 : ¬ (minimumApprovals = 0 ∧ approvers = []) := by
        rintro ⟨a, b⟩
        exact hc ⟨a, by simp [b]⟩
      simp only [hc, if_false, hc2, iff_false, not_not]
      cases hloop : commentLoop goRegexp approvedWords deniedWords approvers
          (effectiveMinimum approvers minimumApprovals) disallowedUsers [] comments with
      | next a => rfl
      | done s e =>
        exact commentLoop_no_error goRegexp approvedWords deniedWords approvers _
          disallowedUsers hA2 hD2 [] comments s e hloop
  · intro hc
    have hc2 : ¬ (minimumApprovals = 0 ∧ approvers.length = 0) := by
      rintro ⟨a, b⟩
      exact hc ⟨a, List.length_eq_zero.mp b⟩
    unfold approvalFromComments
    simp only [hc2, if_false, commentLoop]

/-- Witness for C4: plain vocabularies, no approvers and no minimum. -/
theorem error_iff_no_threshold_witness :
    ((approvalFromComments goRegexp ["approve", "lgtm"] ["deny", "no"]
        [⟨"bob", "no thanks"⟩, ⟨"bob", "lgtm"⟩] [] 0 []).2 ≠ none ↔
      ((0 : Int) = 0 ∧ ([] : List String) = [])) ∧
    (¬ ((0 : Int) = 0 ∧ ([] : List String) = []) →
      approvalFromComments goRegexp ["approve", "lgtm"] ["deny", "no"] [] [] 0 [] =
        (.pending, none)) :=
  error_iff_no_threshold ["approve", "lgtm"] ["deny", "no"] (by decide) (by decide)
    [⟨"bob", "no thanks"⟩, ⟨"bob", "lgtm"⟩] [] 0 []

/-- Witness for C1: two of three required approvers approve, threshold 2. -/
theorem approved_has_threshold_many_approvers_witness :
    ∃ authors : List String, authors.Nodup ∧
      effectiveMinimum ["alice", "bob", "carol"] 2 ≤ (authors.length : Int) ∧
      ∀ a ∈ authors, eligible ["alice", "bob", "carol"] ["mallory"] a ∧
        ∃ c ∈ [(⟨"mallory", "approve"⟩ : IssueComment), ⟨"alice", "Approve!"⟩,
            ⟨"alice", "approve"⟩, ⟨"bob", "approve"⟩],
          c.login = a ∧ isApproved goRegexp ["approve"] c.body = (true, none) :=
  approved_has_threshold_many_approvers goRegexp ["approve"] ["deny"]
    [⟨"mallory", "approve"⟩, ⟨"alice", "Approve!"⟩, ⟨"alice", "approve"⟩, ⟨"bob", "approve"⟩]
    ["alice", "bob", "carol"] 2 ["mallory"] (by decide)

/-- Counterexample to C2 as stated: alice approves, the result is Pending
(threshold 2); alice is eligible and her next comment `deny` is classified as
deny and not as approve, yet the result is not Denied, because alice is
already in the tally and her comment is skipped. -/
theorem deny_after_own_approval_counterexample :
    approvalFromComments goRegexp ["approve"] ["deny"] [⟨"alice", "approve"⟩] [] 2 [] =
        (.pending, none) ∧
      eligible [] [] "alice" ∧
      isApproved goRegexp ["approve"] "deny" = (false, none) ∧
      isDenied goRegexp ["deny"] "deny" = (true, none) ∧
      approvalFromComments goRegexp ["approve"] ["deny"]
        ([⟨"alice", "approve"⟩] ++ [⟨"alice", "deny"⟩] ++ []) [] 2 [] ≠ (.denied, none) := by
  refine ⟨by decide, ⟨by simp, by simp⟩, by decide, by decide, by decide⟩

/-- Witness for C2 as amended: bob, not yet counted, denies after alice
approved. -/
theorem eligible_denial_is_terminal_witness :
    approvalFromComments goRegexp ["approve"] ["deny"]
      ([⟨"alice", "approve"⟩] ++ [⟨"bob", "Deny."⟩] ++ [⟨"carol", "approve"⟩]) [] 2 [] =
      (.denied, none) :=
  eligible_denial_is_terminal goRegexp ["approve"] ["deny"] [⟨"alice", "approve"⟩]
    ⟨"bob", "Deny."⟩ [⟨"carol", "approve"⟩] [] 2 [] (by decide) ⟨by simp, by simp⟩
    (by
      intro a ha
      have h2 : approvalsAfter goRegexp ["approve"] ["deny"] [⟨"alice", "approve"⟩] [] 2 [] =
          some ["alice"] := by decide
      rw [h2] at ha
      cases ha
      decide)
    (by decide) (by decide)

/-- Witness for C3: an approval after a denial changes nothing. -/
theorem terminal_status_prefix_stable_witness :
    approvalFromComments goRegexp ["approve"] ["deny"]
      ([⟨"alice", "deny"⟩] ++ [⟨"bob", "approve"⟩]) [] 1 [] = (.denied, none) :=
  terminal_status_prefix_stable goRegexp ["approve"] ["deny"] [⟨"alice", "deny"⟩]
    [⟨"bob", "approve"⟩] [] 1 [] .denied (Or.inr rfl) (by decide)

/-- Witness for C6: the denial of a user who is not a required approver. -/
theorem unauthorized_comments_never_count_witness :
    approvalFromComments goRegexp ["approve"] ["deny"]
      (([⟨"eve", "deny"⟩, ⟨"alice", "approve"⟩] : List IssueComment).filter
        (fun c => decide (c.login ∈ ["alice"]))) ["alice"] 0 [] =
    approvalFromComments goRegexp ["approve"] ["deny"]
      [⟨"eve", "deny"⟩, ⟨"alice", "approve"⟩] ["alice"] 0 [] :=
  unauthorized_comments_never_count goRegexp ["approve"] ["deny"]
    [⟨"eve", "deny"⟩, ⟨"alice", "approve"⟩] ["alice"] 0 [] (by simp)

/-- Witness for C7: two approvals by alice with threshold 2. -/
theorem single_author_never_reaches_two_witness :
    (approvalFromComments goRegexp ["approve"] ["deny"]
      [⟨"alice", "approve"⟩, ⟨"alice", "approve"⟩] [] 2 []).1 ≠ .approved :=
  single_author_never_reaches_two goRegexp ["approve"] ["deny"]
    [⟨"alice", "approve"⟩, ⟨"alice", "approve"⟩] [] 2 [] "alice" (by decide) (by decide)

/-- Witness for C8: approvers A, B, C with threshold 2; A and B approve, and the
later denial of C is not looked at. -/
theorem threshold_many_approvals_approve_witness :
    approvalFromComments goRegexp ["approve"] ["deny"]
      ([⟨"A", "approve"⟩, ⟨"B", "approve"⟩] ++ [⟨"C", "deny"⟩]) ["A", "B", "C"]
      ((2 : Nat) : Int) [] = (.approved, none) :=
  threshold_many_approvals_approve goRegexp ["approve"] ["deny"] 2 (by decide)
    [⟨"A", "approve"⟩, ⟨"B", "approve"⟩] [⟨"C", "deny"⟩] ["A", "B", "C"] [] rfl (by decide)
    (by
      intro c hc
      simp only [List.mem_cons, List.mem_singleton, List.not_mem_nil, or_false] at hc
      rcases hc with rfl | rfl <;> exact ⟨by simp, by simp⟩)
    (by decide)

/-- Witness for C9: the only required approver alice writes `lgtm`. -/
theorem zero_minimum_needs_all_approvers_witness :
    (approvalFromComments goRegexp ["lgtm"] ["deny"] [⟨"alice", "lgtm"⟩] ["alice"] 0 [] =
        (.approved, none) ↔
      ∀ a ∈ ["alice"], ∃ c ∈ [(⟨"alice", "lgtm"⟩ : IssueComment)], c.login = a ∧
        isApproved goRegexp ["lgtm"] c.body = (true, none)) ∧
    ((¬ ∀ a ∈ ["alice"], ∃ c ∈ [(⟨"alice", "lgtm"⟩ : IssueComment)], c.login = a ∧
        isApproved goRegexp ["lgtm"] c.body = (true, none)) →
      approvalFromComments goRegexp ["lgtm"] ["deny"] [⟨"alice", "lgtm"⟩] ["alice"] 0 [] =
        (.pending, none)) :=
  zero_minimum_needs_all_approvers goRegexp ["lgtm"] ["deny"] [⟨"alice", "lgtm"⟩] ["alice"] []
    (by simp) (by simp) (by simp) (by decide) (by decide)

/-! ## Noise, counted authors, the tally and degenerate thresholds -/

section Tally

variable (R : RegexpPkg) (approvedWords deniedWords : List String)

/-- A comment classified as noise (neither approve nor deny, no error) leaves
the loop state as it is. -/
theorem commentStep_noise (approvers : List String) (minimumApprovals : Int)
    (disallowedUsers : List String) (approvals : List String) (c : IssueComment)
    (hA : isApproved R approvedWords c.body = (false, none))
    (hD : isDenied R deniedWords c.body = (false, none)) :
    commentStep R approvedWords deniedWords approvers minimumApprovals disallowedUsers
      approvals c = .next approvals := by
  by_cases hskip : c.login ∈ disallowedUsers ∨ c.login ∈ approvals ∨
      (approvers ≠ [] ∧ c.login ∉ approvers)
  · exact commentStep_skip _ _ _ _ _ _ _ _ hskip
  · simp only [not_or, not_and, not_not] at hskip
    obtain ⟨h1, h2, h3⟩ := hskip
    rw [commentStep_classify _ _ _ _ _ _ _ _ h1 h2 h3, hA]
    simp only [hD]

/-- Claim C14: noise is ignored.  Removing from the history every comment whose
body is classified neither as approve nor as deny (both classifiers return
false without error) never changes the result of `approvalFromComments`. -/
theorem noise_comments_ignored (h : List IssueComment)
    (approvers : List String) (minimumApprovals : Int) (disallowedUsers : List String) :
    approvalFromComments R approvedWords deniedWords
      (h.filter (fun c => !(decide (isApproved R approvedWords c.body = (false, none)) &&
        decide (isDenied R deniedWords c.body = (false, none)))))
      approvers minimumApprovals disallowedUsers =
    approvalFromComments R approvedWords deniedWords h approvers minimumApprovals
      disallowedUsers := by
  unfold approvalFromComments
  rw [commentLoop_filter]
  intro approvals c hc
  simp only [Bool.not_eq_false', Bool.and_eq_true, decide_eq_true_eq] at hc
  exact commentStep_noise R approvedWords deniedWords approvers _ disallowedUsers approvals c
    hc.1 hc.2

/-- Claim C15: only users not yet counted are classified.  When the author of `c`
is in the tally that the loop built from `p` (whenever the loop went through
`p` without returning), `approvalFromComments` on `p ++ [c] ++ t` equals
`approvalFromComments` on `p ++ t`, whatever the body of `c`. -/
theorem counted_author_is_skipped (p : List IssueComment) (c : IssueComment)
    (t : List IssueComment) (approvers : List String) (minimumApprovals : Int)
    (disallowedUsers : List String)
    (hc : ∀ tally, approvalsAfter R approvedWords deniedWords p approvers minimumApprovals
      disallowedUsers = some tally → c.login ∈ tally) :
    approvalFromComments R approvedWords deniedWords (p ++ [c] ++ t) approvers
      minimumApprovals disallowedUsers =
    approvalFromComments R approvedWords deniedWords (p ++ t) approvers
      minimumApprovals disallowedUsers := by
  unfold approvalsAfter at hc
  unfold approvalFromComments
  rw [List.append_assoc, commentLoop_append, commentLoop_append]
  cases hloop : commentLoop R approvedWords deniedWords approvers
      (effectiveMinimum approvers minimumApprovals) disallowedUsers [] p with
  | next a =>
    rw [hloop] at hc
    have hca : c.login ∈ a := hc a rfl
    simp only [List.singleton_append, commentLoop]
    rw [commentStep_skip _ _ _ _ _ _ _ _ (Or.inr (Or.inl hca))]
    rfl
  | done s e => rfl

/-- Loop invariant behind C18: while the loop runs, the tally stays free of
duplicates, holds eligible authors only, is the list of first approvers and
stays shorter than the threshold. -/
theorem commentLoop_tally (approvers : List String) (minimumApprovals : Int)
    (disallowedUsers : List String) (approvals : List String) (cs : List IssueComment)
    (final : List String)
    (hres : commentLoop R approvedWords deniedWords approvers minimumApprovals
      disallowedUsers approvals cs = .next final)
    (hnodup : approvals.Nodup)
    (helig : ∀ u ∈ approvals, eligible approvers disallowedUsers u)
    (hlen : (approvals.length : Int) < minimumApprovals) :
    final.Nodup ∧ (∀ u ∈ final, eligible approvers disallowedUsers u) ∧
      final = firstApprovers R approvedWords approvers disallowedUsers approvals cs ∧
      (final.length : Int) < minimumApprovals := by
  induction cs generalizing approvals with
  | nil =>
    simp only [commentLoop, LoopState.next.injEq] at hres
    subst hres
    exact ⟨hnodup, helig, rfl, hlen⟩
  | cons c cs ih =>
    simp only [commentLoop] at hres
    unfold firstApprovers
    by_cases hskip : c.login ∈ disallowedUsers ∨ c.login ∈ approvals ∨
        (approvers ≠ [] ∧ c.login ∉ approvers)
    · rw [commentStep_skip _ _ _ _ _ _ _ _ hskip] at hres
      have hcond : ¬ (eligible approvers disallowedUsers c.login ∧ c.login ∉ approvals ∧
          isApproved R approvedWords c.body = (true, none)) := by
        rintro ⟨⟨e1, e2⟩, e3, _⟩
        rcases hskip with h | h | h
        · exact e1 h
        · exact e3 h
        · exact h.2 (e2 h.1)
      rw [if_neg hcond]
      exact ih approvals hres hnodup helig hlen
    · simp only [not_or, not_and, not_not] at hskip
      obtain ⟨h1, h2, h3⟩ := hskip
      rw [commentStep_classify _ _ _ _ _ _ _ _ h1 h2 h3] at hres
      rcases hA : isApproved R approvedWords c.body with ⟨b, e⟩
      rw [hA] at hres
      cases e with
      | some e => simp at hres
      | none =>
        cases b with
        | true =>
          rw [if_pos ⟨⟨h1, h3⟩, h2, rfl⟩]
          simp only at hres
          by_cases hge : ((approvals ++ [c.login]).length : Int) ≥ minimumApprovals
          · rw [if_pos hge] at hres
            cases hres
          · rw [if_neg hge] at hres
            apply ih _ hres
            · rw [List.nodup_append]
              refine ⟨hnodup, List.nodup_singleton _, ?_⟩
              intro a ha hb
              rw [List.mem_singleton] at hb
              exact h2 (hb ▸ ha)
            · intro u hu
              rcases List.mem_append.mp hu with hu | hu
              · exact helig u hu
              · rw [List.mem_singleton] at hu
                exact hu ▸ ⟨h1, h3⟩
            · exact not_le.mp hge
        | false =>
          have hcond : ¬ (eligible approvers disallowedUsers c.login ∧ c.login ∉ approvals ∧
              ((false, none) : Bool × Option Error) = (true, none)) := by
            rintro ⟨_, _, e3⟩
            simp at e3
          rw [if_neg hcond]
          simp only at hres
          rcases hD : isDenied R deniedWords c.body with ⟨b2, e2⟩
          rw [hD] at hres
          cases e2 with
          | some e => simp at hres
          | none =>
            cases b2 with
            | true => simp at hres
            | false => exact ih approvals hres hnodup helig hlen

/-- Claim C18: tally invariant.  With an effective threshold of at least 1, at
the start of every loop iteration (after any prefix `p` of the history that
the loop went through without returning) the `approvals` list holds no author
twice, holds eligible authors only, lists them in the order of their first
approve comment, and is strictly shorter than the effective threshold; after
one more append its length does not exceed the effective threshold. -/
theorem tally_invariant (p : List IssueComment) (approvers : List String)
    (minimumApprovals : Int) (disallowedUsers : List String) (tally : List String)
    (hthr : 1 ≤ effectiveMinimum approvers minimumApprovals)
    (htally : approvalsAfter R approvedWords deniedWords p approvers minimumApprovals
      disallowedUsers = some tally) :
    tally.Nodup ∧ (∀ u ∈ tally, eligible approvers disallowedUsers u) ∧
      tally = firstApprovers R approvedWords approvers disallowedUsers [] p ∧
      (tally.length : Int) < effectiveMinimum approvers minimumApprovals ∧
      ∀ u : String,
        ((tally ++ [u]).length : Int) ≤ effectiveMinimum approvers minimumApprovals := by
  unfold approvalsAfter at htally
  cases hloop : commentLoop R approvedWords deniedWords approvers
      (effectiveMinimum approvers minimumApprovals) disallowedUsers [] p with
  | done s e => rw [hloop] at htally; simp at htally
  | next a =>
    rw [hloop] at htally
    simp only [Option.some.injEq] at htally
    subst htally
    obtain ⟨g1, g2, g3, g4⟩ := commentLoop_tally R approvedWords deniedWords approvers
      (effectiveMinimum approvers minimumApprovals) disallowedUsers [] p a hloop
      List.nodup_nil (by simp) (by simp; omega)
    refine ⟨g1, g2, g3, g4, fun u => ?_⟩
    simp only [List.length_append, List.length_singleton]
    push_cast
    omega

/-- Claim C19: unreachable threshold.  With a non-empty `approvers` list whose
effective threshold exceeds the number of distinct approvers that are not in
`disallowedUsers`, `approvalFromComments` never returns Approved. -/
theorem unreachable_threshold (comments : List IssueComment) (approvers : List String)
    (minimumApprovals : Int) (disallowedUsers : List String) (hne : approvers ≠ [])
    (hthr : ((approvers.dedup.filter (fun u => decide (u ∉ disallowedUsers))).length : Int) <
      effectiveMinimum approvers minimumApprovals) :
    (approvalFromComments R approvedWords deniedWords comments approvers minimumApprovals
      disallowedUsers).1 ≠ .approved := by
  unfold approvalFromComments
  split
  · simp
  · cases hloop : commentLoop R approvedWords deniedWords approvers
        (effectiveMinimum approvers minimumApprovals) disallowedUsers [] comments with
    | next a => simp
    | done s e =>
      simp only
      rintro rfl
      obtain ⟨authors, hnodup, hlen, hall⟩ := commentLoop_approved_inv R approvedWords
        deniedWords approvers (effectiveMinimum approvers minimumApprovals) disallowedUsers
        [] [] comments e List.nodup_nil (by simp) hloop
      have hsub : authors ⊆ approvers.dedup.filter (fun u => decide (u ∉ disallowedUsers)) := by
        intro u hu
        have := (hall u hu).1
        simp only [List.mem_filter, List.mem_dedup, decide_eq_true_eq]
        exact ⟨this.2 hne, this.1⟩
      have := (List.subperm_of_subset hnodup hsub).length_le
      omega

/-- With a threshold of at most 1 every first approval reaches the threshold,
so the loop body does not depend on the threshold. -/
theorem commentStep_low_threshold (approvers : List String) (m1 m2 : Int)
    (disallowedUsers : List String) (h1 : m1 ≤ 1) (h2 : m2 ≤ 1) (approvals : List String)
    (c : IssueComment) :
    commentStep R approvedWords deniedWords approvers m1 disallowedUsers approvals c =
    commentStep R approvedWords deniedWords approvers m2 disallowedUsers approvals c := by
  unfold commentStep
  have e1 : ((approvals ++ [c.login]).length : Int) ≥ m1 := by
    simp only [List.length_append, List.length_singleton]; push_cast; omega
  have e2 : ((approvals ++ [c.login]).length : Int) ≥ m2 := by
    simp only [List.length_append, List.length_singleton]; push_cast; omega
  simp only [e1, e2, if_true]

/-- The loop does not depend on a threshold of at most 1. -/
theorem commentLoop_low_threshold (approvers : List String) (m1 m2 : Int)
    (disallowedUsers : List String) (h1 : m1 ≤ 1) (h2 : m2 ≤ 1) (approvals : List String)
    (cs : List IssueComment) :
    commentLoop R approvedWords deniedWords approvers m1 disallowedUsers approvals cs =
    commentLoop R approvedWords deniedWords approvers m2 disallowedUsers approvals cs := by
  induction cs generalizing approvals with
  | nil => rfl
  | cons c cs ih =>
    simp only [commentLoop]
    rw [commentStep_low_threshold R approvedWords deniedWords approvers m1 m2 disallowedUsers
      h1 h2]
    cases commentStep R approvedWords deniedWords approvers m2 disallowedUsers approvals c with
    | next a => exact ih a
    | done s e => rfl

/-- The classifiers only pass on errors of `regexp.Compile`. -/
theorem isApproved_error_is_regexp (words : List String) (body : String) :
    (isApproved R words body).2 ≠ some .noApprovers := by
  induction words with
  | nil => simp [isApproved]
  | cons v rest ih =>
    unfold isApproved
    cases R.Compile (wordPattern v) with
    | error e => simp
    | ok re =>
      simp only
      by_cases hm : R.MatchString re body = true
      · simp [hm]
      · simp only [hm, if_false]
        exact ih

/-- The comment loop only passes on errors of `regexp.Compile`. -/
theorem commentLoop_error_is_regexp (approvers : List String) (minimumApprovals : Int)
    (disallowedUsers : List String) (approvals : List String) (cs : List IssueComment)
    (status : approvalStatus) :
    commentLoop R approvedWords deniedWords approvers minimumApprovals disallowedUsers
      approvals cs ≠ .done status (some .noApprovers) := by
  induction cs generalizing approvals with
  | nil => simp [commentLoop]
  | cons c cs ih =>
    simp only [commentLoop]
    by_cases hskip : c.login ∈ disallowedUsers ∨ c.login ∈ approvals ∨
        (approvers ≠ [] ∧ c.login ∉ approvers)
    · rw [commentStep_skip _ _ _ _ _ _ _ _ hskip]
      exact ih approvals
    · simp only [not_or, not_and, not_not] at hskip
      obtain ⟨h1, h2, h3⟩ := hskip
      rw [commentStep_classify _ _ _ _ _ _ _ _ h1 h2 h3]
      have hAe := isApproved_error_is_regexp R approvedWords c.body
      have hDe := isApproved_error_is_regexp R deniedWords c.body
      rw [← isDenied_eq_isApproved] at hDe
      rcases hA : isApproved R approvedWords c.body with ⟨b, e⟩
      rw [hA] at hAe
      cases e with
      | some e =>
        intro h
        simp only [LoopState.done.injEq] at h
        exact hAe (by rw [h.2])
      | none =>
        cases b with
        | true =>
          simp only
          by_cases hge : ((approvals ++ [c.login]).length : Int) ≥ minimumApprovals
          · rw [if_pos hge]; simp
          · rw [if_neg hge]; exact ih _
        | false =>
          simp only
          rcases hD : isDenied R deniedWords c.body with ⟨b2, e2⟩
          rw [hD] at hDe
          cases e2 with
          | some e =>
            intro h
            simp only [LoopState.done.injEq] at h
            exact hDe (by rw [h.2])
          | none =>
            cases b2 with
            | true => simp
            | false => exact ih approvals

/-- Claim C20: negative threshold.  For a negative `minimumApprovals` the result
of `approvalFromComments` is the result with `minimumApprovals = 1`: there
is no configuration error, and a first comment by an eligible author that is
classified as approve gives Approved. -/
theorem negative_minimum_acts_as_one (comments : List IssueComment)
    (approvers : List String) (minimumApprovals : Int) (disallowedUsers : List String)
    (hneg : minimumApprovals < 0) :
    approvalFromComments R approvedWords deniedWords comments approvers minimumApprovals
        disallowedUsers =
      approvalFromComments R approvedWords deniedWords comments approvers 1 disallowedUsers ∧
    (approvalFromComments R approvedWords deniedWords comments approvers minimumApprovals
        disallowedUsers).2 ≠ some .noApprovers ∧
    ∀ (c : IssueComment) (rest : List IssueComment),
      eligible approvers disallowedUsers c.login →
      isApproved R approvedWords c.body = (true, none) →
      approvalFromComments R approvedWords deniedWords (c :: rest) approvers minimumApprovals
        disallowedUsers = (.approved, none) := by
  have hm0 : ¬ (minimumApprovals = 0) := by omega
  have h10 : ¬ ((1 : Int) = 0) := by omega
  have heq : ∀ cs, approvalFromComments R approvedWords deniedWords cs approvers
      minimumApprovals disallowedUsers =
      approvalFromComments R approvedWords deniedWords cs approvers 1 disallowedUsers := by
    intro cs
    unfold approvalFromComments effectiveMinimum
    simp only [hm0, h10, false_and, if_false]
    rw [commentLoop_low_threshold R approvedWords deniedWords approvers minimumApprovals 1
      disallowedUsers (by omega) (le_refl _)]
  refine ⟨heq comments, ?_, ?_⟩
  · rw [heq]
    unfold approvalFromComments effectiveMinimum
    simp only [h10, false_and, if_false]
    cases hloop : commentLoop R approvedWords deniedWords approvers 1 disallowedUsers []
        comments with
    | next a => simp
    | done s e =>
      simp only
      rintro rfl
      exact commentLoop_error_is_regexp R approvedWords deniedWords approvers 1
        disallowedUsers [] comments s hloop
  · intro c rest hel hA
    rw [heq]
    unfold approvalFromComments effectiveMinimum
    simp only [h10, false_and, if_false, commentLoop]
    rw [commentStep_classify _ _ _ _ _ _ _ _ hel.1 (by simp) hel.2, hA]
    simp

end Tally

/-- Witness for C15: alice's denial after her own approval is skipped. -/
theorem counted_author_is_skipped_witness :
    approvalFromComments goRegexp ["approve"] ["deny"]
      ([⟨"alice", "approve"⟩] ++ [⟨"alice", "deny"⟩] ++ [⟨"bob", "approve"⟩]) [] 2 [] =
    approvalFromComments goRegexp ["approve"] ["deny"]
      ([⟨"alice", "approve"⟩] ++ [⟨"bob", "approve"⟩]) [] 2 [] :=
  counted_author_is_skipped goRegexp ["approve"] ["deny"] [⟨"alice", "approve"⟩]
    ⟨"alice", "deny"⟩ [⟨"bob", "approve"⟩] [] 2 []
    (by
      intro tally htally
      have h2 : approvalsAfter goRegexp ["approve"] ["deny"] [⟨"alice", "approve"⟩] [] 2 [] =
          some ["alice"] := by decide
      rw [h2] at htally
      cases htally
      decide)

/-- Witness for C18: after alice approved twice and mallory, a disallowed user,
once, the tally is alice alone. -/
theorem tally_invariant_witness :
    ["alice"].Nodup ∧ (∀ u ∈ ["alice"], eligible [] ["mallory"] u) ∧
      ["alice"] = firstApprovers goRegexp ["approve"] [] ["mallory"] []
        [⟨"mallory", "approve"⟩, ⟨"alice", "approve"⟩, ⟨"alice", "Approve!"⟩] ∧
      ((["alice"] : List String).length : Int) < effectiveMinimum [] 3 ∧
      ∀ u : String, ((["alice"] ++ [u]).length : Int) ≤ effectiveMinimum [] 3 :=
  tally_invariant goRegexp ["approve"] ["deny"]
    [⟨"mallory", "approve"⟩, ⟨"alice", "approve"⟩, ⟨"alice", "Approve!"⟩] [] 3 ["mallory"]
    ["alice"] (by decide) (by decide)

/-- Witness for C19: `approvers = [alice, alice]` with no minimum, and
`approvers = [alice]` with a minimum of 2. -/
theorem unreachable_threshold_witness :
    (approvalFromComments goRegexp ["approve"] ["deny"]
        [⟨"alice", "approve"⟩, ⟨"alice", "approve"⟩] ["alice", "alice"] 0 []).1 ≠ .approved ∧
      (approvalFromComments goRegexp ["approve"] ["deny"]
        [⟨"alice", "approve"⟩, ⟨"alice", "approve"⟩] ["alice"] 2 []).1 ≠ .approved :=
  ⟨unreachable_threshold goRegexp ["approve"] ["deny"]
      [⟨"alice", "approve"⟩, ⟨"alice", "approve"⟩] ["alice", "alice"] 0 [] (by simp) (by decide),
    unreachable_threshold goRegexp ["approve"] ["deny"]
      [⟨"alice", "approve"⟩, ⟨"alice", "approve"⟩] ["alice"] 2 [] (by simp) (by decide)⟩

/-- Witness for C20: a minimum of -3 and no approvers. -/
theorem negative_minimum_acts_as_one_witness :
    approvalFromComments goRegexp ["approve"] ["deny"] [⟨"bob", "approve"⟩] [] (-3) [] =
      approvalFromComments goRegexp ["approve"] ["deny"] [⟨"bob", "approve"⟩] [] 1 [] :=
  (negative_minimum_acts_as_one goRegexp ["approve"] ["deny"] [⟨"bob", "approve"⟩] [] (-3) []
    (by decide)).1

/-! ## The request builder -/

/-- Claim C16: request builder assignees.  The request that
`createApprovalIssue` passes to issue creation has the assignee list
`[workflowInitiator]` when `issueApprovers` is empty and `issueApprovers`
itself, same elements in the same order, when it is not; the list is never
empty.  The last part reads the list off a creation function that hands the
assignees it receives back. -/
theorem assignees_of_request {Client : Type} (githubBaseURL : String)
    (approvedWords deniedWords : List String) (a : approvalEnvironment Client) :
    (a.issueApprovers = [] →
        (a.issueRequest githubBaseURL approvedWords deniedWords).Assignees =
          [a.workflowInitiator]) ∧
      (a.issueApprovers ≠ [] →
        (a.issueRequest githubBaseURL approvedWords deniedWords).Assignees =
          a.issueApprovers) ∧
      (a.issueRequest githubBaseURL approvedWords deniedWords).Assignees ≠ [] ∧
      (createApprovalIssue (fun _ _ _ request => (none, some request.Assignees))
          githubBaseURL approvedWords deniedWords a).2 =
        some (if a.issueApprovers = [] then [a.workflowInitiator] else a.issueApprovers) := by
  unfold createApprovalIssue approvalEnvironment.issueRequest
  by_cases h : a.issueApprovers = []
  · simp [h]
  · have hpos : a.issueApprovers.length > 0 := List.length_pos.mpr h
    simp [h, hpos]

/-- The pieces of a split are one more than the separators. -/
theorem stringsSplit_length (sep : Char) (s : List Char) :
    (stringsSplit sep s).length = s.count sep + 1 := by
  induction s with
  | nil => rfl
  | cons c cs ih =>
    unfold stringsSplit
    by_cases h : c = sep
    · subst h
      simp [ih]
    · have hne : (c == sep) = false := by simpa using h
      rw [if_neg h, List.count_cons, hne]
      cases hs : stringsSplit sep cs with
      | nil => rw [hs] at ih; simp at ih
      | cons piece pieces => rw [hs] at ih; simpa using ih

/-- A text without separator is one piece. -/
theorem stringsSplit_of_not_mem (sep : Char) (s : List Char) (h : sep ∉ s) :
    stringsSplit sep s = [s] := by
  induction s with
  | nil => rfl
  | cons c cs ih =>
    have hc : ¬ c = sep := fun e => h (by simp [e])
    have hcs : sep ∉ cs := fun e => h (List.mem_cons_of_mem _ e)
    unfold stringsSplit
    rw [if_neg hc, ih hcs]

/-- Splitting `owner/name` gives the two parts. -/
theorem stringsSplit_pair (sep : Char) (owner name : List Char) (ho : sep ∉ owner)
    (hn : sep ∉ name) : stringsSplit sep (owner ++ sep :: name) = [owner, name] := by
  induction owner with
  | nil =>
    simp only [List.nil_append]
    unfold stringsSplit
    rw [if_pos rfl, stringsSplit_of_not_mem sep name hn]
  | cons c cs ih =>
    have hc : ¬ c = sep := fun e => ho (by simp [e])
    have hcs : sep ∉ cs := fun e => ho (List.mem_cons_of_mem _ e)
    rw [List.cons_append]
    unfold stringsSplit
    rw [if_neg hc, ih hcs]

/-- Claim C17, amended: `newApprovalEnvironment` returns the format error if and
only if `repoFullName` does not hold exactly one `/`; with exactly one `/`
it succeeds, the `repo` field is the part after the separator, `issueTitle`
is stored as `Manual approval required for: <issueTitle> (run <runID>)`,
and the other inputs are stored unchanged. -/
theorem newApprovalEnvironment_format {Client : Type} (client : Client)
    (repoFullName repoOwner : String) (runID : Int) (approvers : List String)
    (minimumApprovals : Int) (issueTitle issueBody : String) (disallowedUsers : List String)
    (workflowInitiator : String) :
    (newApprovalEnvironment client repoFullName repoOwner runID approvers minimumApprovals
        issueTitle issueBody disallowedUsers workflowInitiator =
        .error (.unexpectedFormat repoFullName) ↔
      repoFullName.toList.count '/' ≠ 1) ∧
    (repoFullName.toList.count '/' = 1 →
      ∃ owner name : List Char, repoFullName.toList = owner ++ '/' :: name ∧
        '/' ∉ owner ∧ '/' ∉ name ∧
        newApprovalEnvironment client repoFullName repoOwner runID approvers minimumApprovals
          issueTitle issueBody disallowedUsers workflowInitiator =
        .ok { client := client
              repoFullName := repoFullName
              repo := String.mk name
              repoOwner := repoOwner
              runID := runID
              approvalIssue := none
              approvalIssueNumber := 0
              issueApprovers := approvers
              disallowedUsers := disallowedUsers
              minimumApprovals := minimumApprovals
              issueTitle := "Manual approval required for: " ++ issueTitle ++ " (run " ++
                toString runID ++ ")"
              issueBody := issueBody
              workflowInitiator := workflowInitiator }) := by
  constructor
  · unfold newApprovalEnvironment
    simp only [stringsSplit_length]
    by_cases h : repoFullName.toList.count '/' = 1
    · simp [h]
    · have h2 : List.count '/' repoFullName.toList + 1 ≠ 2 := by omega
      simp [h, h2]
  · intro h
    have hmem : '/' ∈ repoFullName.toList := by
      rw [← List.count_pos_iff]; omega
    obtain ⟨owner, name, hsplit, ho⟩ := List.eq_append_cons_of_mem hmem
    have hn : '/' ∉ name := by
      rw [hsplit, List.count_append, List.count_cons_self, List.count_eq_zero.mpr ho] at h
      exact List.count_eq_zero.mp (by omega)
    refine ⟨owner, name, hsplit, ho, hn, ?_⟩
    unfold newApprovalEnvironment
    rw [hsplit, stringsSplit_pair '/' owner name ho hn]
    simp

/-- Counterexample to C17 as stated: on success the input `issueTitle` is not
stored unchanged. -/
theorem issueTitle_not_stored_unchanged_counterexample :
    ∃ env : approvalEnvironment Unit,
      newApprovalEnvironment () "octo/repo" "octo" 7 ["alice"] 1 "Deploy" "" [] "bob" =
        .ok env ∧
      env.repo = "repo" ∧
      env.issueTitle = "Manual approval required for: Deploy (run 7)" ∧
      env.issueTitle ≠ "Deploy" :=
  ⟨_, rfl, by decide, by decide, by decide⟩

/-! ## What the word pattern does not match -/

section RegexpInversion

/-- A split of a text puts the text back together. -/
theorem splits_append (s : List Char) (p : List Char × List Char) (h : p ∈ splits s) :
    p.1 ++ p.2 = s := by
  induction s generalizing p with
  | nil =>
    simp only [splits, List.mem_singleton] at h
    subst h
    rfl
  | cons c cs ih =>
    simp only [splits, List.mem_cons, List.mem_map] at h
    rcases h with rfl | ⟨q, hq, rfl⟩
    · rfl
    · simp [ih q hq]

/-- A match of a concatenation cuts the text in a match of each part. -/
theorem matchAt_concat_inv (left right : Regex) (pre s post : List Char)
    (h : (Regex.concat left right).matchAt pre s post = true) :
    ∃ a b, s = a ++ b ∧ left.matchAt pre a (b ++ post) = true ∧
      right.matchAt (pre ++ a) b post = true := by
  simp only [Regex.matchAt, List.any_eq_true, Bool.and_eq_true] at h
  obtain ⟨p, hp, hl, hr⟩ := h
  exact ⟨p.1, p.2, (splits_append s p hp).symm, hl, hr⟩

/-- When the body of a repetition matches single characters with a property,
every character of a repeated match has the property. -/
theorem starMatch_inv (m : List Char → List Char → List Char → Bool) (P : Char → Prop)
    (hm : ∀ pre s post, m pre s post = true → ∃ x, s = [x] ∧ P x)
    (fuel : Nat) (pre s post : List Char) (h : starMatch m fuel pre s post = true) :
    ∀ x ∈ s, P x := by
  induction fuel generalizing pre s with
  | zero =>
    simp only [starMatch, List.isEmpty_eq_true] at h
    subst h
    simp
  | succ k ih =>
    simp only [starMatch, Bool.or_eq_true, List.isEmpty_eq_true, List.any_eq_true,
      Bool.and_eq_true] at h
    rcases h with rfl | ⟨p, hp, ⟨_, hm1⟩, hrest⟩
    · simp
    · obtain ⟨x, hx, hPx⟩ := hm _ _ _ hm1
      have hs := splits_append s p hp
      intro y hy
      rw [← hs, hx] at hy
      rcases List.mem_append.mp hy with hy | hy
      · rw [List.mem_singleton] at hy
        exact hy ▸ hPx
      · exact ih _ _ hrest y hy

/-- When the body of a starred expression matches single characters with a
property, every character of a match has the property. -/
theorem matchAt_star_inv (sub : Regex) (P : Char → Prop)
    (hm : ∀ pre s post, sub.matchAt pre s post = true → ∃ x, s = [x] ∧ P x)
    (pre s post : List Char) (h : (Regex.star sub).matchAt pre s post = true) :
    ∀ x ∈ s, P x := by
  simp only [Regex.matchAt] at h
  exact starMatch_inv _ P hm _ _ _ _ h

/-- The fold partners listed by `asciiFold` are ASCII letters. -/
theorem asciiFold_isAlpha (x y : Char) (h : y ∈ asciiFold x) : y.isAlpha = true := by
  unfold asciiFold at h
  split at h
  · rename_i hu
    rw [List.mem_singleton] at h
    subst h
    have hn : 65 ≤ x.toNat ∧ x.toNat ≤ 90 := by
      simp only [Char.isUpper, Bool.and_eq_true, decide_eq_true_eq] at hu
      simp only [UInt32.le_def, Char.toNat] at *
      exact hu
    have hx : x = Char.ofNat x.toNat := (Char.ofNat_toNat x).symm
    generalize x.toNat = n at hn hx
    subst hx
    obtain ⟨h1, h2⟩ := hn
    interval_cases n <;> rfl
  · split at h
    · rename_i hl
      rw [List.mem_singleton] at h
      subst h
      have hn : 97 ≤ x.toNat ∧ x.toNat ≤ 122 := by
        simp only [Char.isLower, Bool.and_eq_true, decide_eq_true_eq] at hl
        simp only [UInt32.le_def, Char.toNat] at *
        exact hl
      have hx : x = Char.ofNat x.toNat := (Char.ofNat_toNat x).symm
      generalize x.toNat = n at hn hx
      subst hx
      obtain ⟨h1, h2⟩ := hn
      interval_cases n <;> rfl
    · split at h
      · simp only [List.mem_cons, List.mem_singleton, List.not_mem_nil, or_false] at h
        rcases h with rfl | rfl <;> rfl
      · split at h
        · simp only [List.mem_cons, List.mem_singleton, List.not_mem_nil, or_false] at h
          rcases h with rfl | rfl <;> rfl
        · simp at h

/-- A pattern character that is not a letter matches itself only. -/
theorem literalMatches_not_alpha (c x : Char) (hc : c.isAlpha = false)
    (h : literalMatches true c x = true) : x = c := by
  simp only [literalMatches, Bool.true_and, Bool.or_eq_true, beq_iff_eq,
    List.contains_iff_exists_mem_beq] at h
  rcases h with h | ⟨y, hy, hyc⟩
  · exact h
  · have := asciiFold_isAlpha x y hy
    rw [← hyc, hc] at this
    cases this

/-- A bracket class matches one character, a member of the class. -/
theorem charClass_single (foldCase negated : Bool) (items : List ClassItem)
    (pre s post : List Char)
    (h : (Regex.charClass foldCase negated items).matchAt pre s post = true) :
    ∃ x, s = [x] ∧ (items.any (fun item => item.contains foldCase x) != negated) = true := by
  match s, h with
  | [x], h => exact ⟨x, rfl, by simpa [Regex.matchAt] using h⟩
  | [], h => simp [Regex.matchAt] at h
  | _ :: _ :: _, h => simp [Regex.matchAt] at h

/-- A literal matches one character. -/
theorem literal_single (c : Char) (foldCase : Bool) (pre s post : List Char)
    (h : (Regex.literal c foldCase).matchAt pre s post = true) :
    ∃ x, s = [x] ∧ literalMatches foldCase c x = true := by
  match s, h with
  | [x], h => exact ⟨x, rfl, by simpa [Regex.matchAt] using h⟩
  | [], h => simp [Regex.matchAt] at h
  | _ :: _ :: _, h => simp [Regex.matchAt] at h

/-- The class `[.!]` holds `.` and `!` only, also under case folding. -/
theorem marks_class_inv (x : Char)
    (h : ([ClassItem.range '.' '.', ClassItem.range '!' '!'].any
      (fun item => item.contains true x) != false) = true) : x = '.' ∨ x = '!' := by
  simp only [List.any_cons, List.any_nil, Bool.or_false, bne_iff_ne, ne_eq,
    Bool.not_eq_false, Bool.or_eq_true, ClassItem.contains, Bool.true_and, Bool.and_eq_true,
    decide_eq_true_eq, List.any_eq_true] at h
  rcases h with (h | ⟨y, hy, h⟩) | (h | ⟨y, hy, h⟩)
  · left; exact le_antisymm h.2 h.1
  · have : y = '.' := le_antisymm h.2 h.1
    have h2 := asciiFold_isAlpha x y hy
    rw [this] at h2
    cases h2
  · right; exact le_antisymm h.2 h.1
  · have : y = '!' := le_antisymm h.2 h.1
    have h2 := asciiFold_isAlpha x y hy
    rw [this] at h2
    cases h2

/-- The class `\s` holds space, tab, newline, form feed and carriage return
only, also under case folding. -/
theorem space_class_inv (x : Char)
    (h : ([ClassItem.perl .space false].any (fun item => item.contains true x) != false) =
      true) :
    x = ' ' ∨ x = '\t' ∨ x = '\n' ∨ x = Char.ofNat 12 ∨ x = '\r' := by
  simp only [List.any_cons, List.any_nil, Bool.or_false, bne_iff_ne, ne_eq,
    Bool.not_eq_false, Bool.or_eq_true, ClassItem.contains, Bool.true_and,
    List.any_eq_true, PerlClass.contains, beq_iff_eq] at h
  rcases h with h | ⟨y, hy, h⟩
  · tauto
  · have h2 := asciiFold_isAlpha x y hy
    rcases h with (((h | h) | h) | h) | h <;> rw [h] at h2 <;> cases h2

/-- The end of the word pattern matches only `.`/`!` marks followed by
characters of `\s`, and only up to the end of the text. -/
theorem tailRegex_inv (pre s post : List Char)
    (h : tailRegex.matchAt pre s post = true) :
    post = [] ∧ ∃ p ws, s = p ++ ws ∧ (∀ c ∈ p, c = '.' ∨ c = '!') ∧
      (∀ c ∈ ws, c = ' ' ∨ c = '\t' ∨ c = '\n' ∨ c = Char.ofNat 12 ∨ c = '\r') := by
  unfold tailRegex at h
  obtain ⟨p, r1, hs1, hp, h⟩ := matchAt_concat_inv _ _ _ _ _ h
  obtain ⟨nl, r2, hs2, hnl, h⟩ := matchAt_concat_inv _ _ _ _ _ h
  obtain ⟨sp, r3, hs3, hsp, h⟩ := matchAt_concat_inv _ _ _ _ _ h
  simp only [Regex.matchAt, Bool.and_eq_true, List.isEmpty_eq_true] at h
  obtain ⟨hr3, hpost⟩ := h
  subst hr3
  have hp2 : ∀ c ∈ p, c = '.' ∨ c = '!' :=
    matchAt_star_inv _ (fun c => c = '.' ∨ c = '!')
      (fun a b c hm => by
        obtain ⟨x, hx, hc⟩ := charClass_single _ _ _ _ _ _ hm
        exact ⟨x, hx, marks_class_inv x hc⟩) _ _ _ hp
  have hnl2 : ∀ c ∈ nl, c = '\n' :=
    matchAt_star_inv _ (fun c => c = '\n')
      (fun a b c hm => by
        obtain ⟨x, hx, hc⟩ := literal_single _ _ _ _ _ hm
        exact ⟨x, hx, literalMatches_not_alpha _ x rfl hc⟩) _ _ _ hnl
  have hsp2 : ∀ c ∈ sp, c = ' ' ∨ c = '\t' ∨ c = '\n' ∨ c = Char.ofNat 12 ∨ c = '\r' :=
    matchAt_star_inv _ (fun c => c = ' ' ∨ c = '\t' ∨ c = '\n' ∨ c = Char.ofNat 12 ∨ c = '\r')
      (fun a b c hm => by
        obtain ⟨x, hx, hc⟩ := charClass_single _ _ _ _ _ _ hm
        exact ⟨x, hx, space_class_inv x hc⟩) _ _ _ hsp
  refine ⟨hpost, p, nl ++ sp, ?_, hp2, ?_⟩
  · rw [hs1, hs2, hs3]; simp
  · intro c hc
    rcases List.mem_append.mp hc with hc | hc
    · right; right; left; exact hnl2 c hc
    · exact hsp2 c hc

/-- A chain of case-folding literals matches only a text that matches it
character by character, followed by a match of the rest. -/
theorem matchAt_literals_inv (w : List Char) (tail : Regex) (pre s post : List Char)
    (h : (w.foldr (fun c acc => Regex.concat (.literal c true) acc) tail).matchAt pre s post =
      true) :
    ∃ w2 rest, s = w2 ++ rest ∧
      List.Forall₂ (fun a x => literalMatches true a x = true) w w2 ∧
      tail.matchAt (pre ++ w2) rest post = true := by
  induction w generalizing pre s with
  | nil => exact ⟨[], s, rfl, List.Forall₂.nil, by simpa using h⟩
  | cons a w ih =>
    simp only [List.foldr_cons] at h
    obtain ⟨s1, s2, hs, hl, hr⟩ := matchAt_concat_inv _ _ _ _ _ h
    obtain ⟨x, hx, hax⟩ := literal_single _ _ _ _ _ hl
    subst hx
    obtain ⟨w2, rest, hs2, hF, ht⟩ := ih _ _ hr
    refine ⟨x :: w2, rest, ?_, List.Forall₂.cons hax hF, ?_⟩
    · rw [hs, hs2]; rfl
    · simpa using ht

/-- The compiled pattern of a word matches a text only as a whole: a
character-by-character match of the word, then `.`/`!` marks, then characters
of `\s`. -/
theorem wordRegex_inv (w text : List Char) (h : (wordRegex w).matchChars text = true) :
    ∃ w2 p ws, text = w2 ++ p ++ ws ∧
      List.Forall₂ (fun a x => literalMatches true a x = true) w w2 ∧
      (∀ c ∈ p, c = '.' ∨ c = '!') ∧
      (∀ c ∈ ws, c = ' ' ∨ c = '\t' ∨ c = '\n' ∨ c = Char.ofNat 12 ∨ c = '\r') := by
  simp only [Regex.matchChars, List.any_eq_true] at h
  obtain ⟨q1, hq1, q2, hq2, hm⟩ := h
  have e1 := splits_append _ _ hq1
  have e2 := splits_append _ _ hq2
  unfold wordRegex at hm
  obtain ⟨a, b, hab, hbegin, hrest⟩ := matchAt_concat_inv _ _ _ _ _ hm
  simp only [Regex.matchAt, Bool.and_eq_true, List.isEmpty_eq_true] at hbegin
  obtain ⟨ha, hpre⟩ := hbegin
  obtain ⟨w2, rest, hs, hF, ht⟩ := matchAt_literals_inv _ _ _ _ _ hrest
  obtain ⟨hpost, p, ws, hpw, hp, hws⟩ := tailRegex_inv _ _ _ ht
  refine ⟨w2, p, ws, ?_, hF, hp, hws⟩
  rw [← e1, ← e2, hpre, hpost, hab, ha, hs, hpw]
  simp

end RegexpInversion

/-! ## Phrases without metacharacters -/

section LiteralWords

/-- In normal mode an ASCII character that is not a metacharacter is pushed as
a literal. -/
theorem step_literal (st : ParserState) (c : Char) (hmode : st.mode = .normal)
    (h128 : c.toNat < 128) (hmeta : isMetaChar c = false) :
    st.step c = .ok (st.push (.literal c st.flags.foldCase)) := by
  have h128n : ¬ c.toNat ≥ 128 := by omega
  simp only [isMetaChar, List.contains_eq_any_beq, List.any_cons, List.any_nil, Bool.or_false,
    Bool.or_eq_false_iff, beq_eq_false_iff_ne, ne_eq] at hmeta
  obtain ⟨f1, f2, f3, f4, f5, f6, f7, f8, f9, f10, f11, f12⟩ := hmeta
  unfold ParserState.step
  simp only [h128n, if_false, hmode]
  unfold ParserState.stepNormal
  simp only [f1, f2, f3, f4, f5, f6, f7, f8, f9, f10, f11, f12, if_false]

/-- A run of ASCII characters without metacharacters is pushed as literals. -/
theorem run_literal (fl : Flags) (items alts : List Regex) (frames : List Frame)
    (cs : List Char) (h : ∀ c ∈ cs, c.toNat < 128 ∧ isMetaChar c = false) :
    ParserState.run ⟨fl, items, alts, frames, .none, .normal⟩ cs =
      .ok ⟨fl, (cs.map (fun c => Regex.literal c fl.foldCase)).reverse ++ items, alts, frames,
        .none, .normal⟩ := by
  induction cs generalizing items with
  | nil => rfl
  | cons c cs ih =>
    simp only [ParserState.run]
    rw [step_literal _ c rfl (h c (by simp)).1 (h c (by simp)).2]
    simp only [ParserState.push]
    rw [ih _ (fun c2 hc2 => h c2 (List.mem_cons_of_mem _ hc2))]
    simp

/-- The pattern of an ASCII word without metacharacters compiles, to
`wordRegex`. -/
theorem compile_literal_word (word : String)
    (h : ∀ c ∈ word.toList, c.toNat < 128 ∧ isMetaChar c = false) :
    goRegexp.Compile (wordPattern word) = .ok (wordRegex word.toList) := by
  have h0 : ParserState.init.run ['(', '?', 'i', ')', '^'] =
      .ok ⟨⟨true, true, false, false⟩, [.beginText], [], [], .none, .normal⟩ := rfl
  show parseChars (wordPattern word).toList = .ok (wordRegex word.toList)
  unfold parseChars wordPattern
  simp only [String.toList, String.data_append, List.append_assoc] at h ⊢
  rw [run_append, h0]
  simp only
  rw [run_append, run_literal _ _ _ _ _ h]
  simp only
  rw [run_tail]
  simp only [ParserState.finish, altOf, concatOf, List.foldl_nil, wordRegex, tailRegex]
  rw [← List.map_reverse, List.foldl_cons, List.foldl_cons, List.foldl_cons,
    List.foldl_append, List.foldl_cons, List.foldl_nil, List.foldl_map, List.foldl_reverse]

/-- Letters and digits are ASCII and are not metacharacters. -/
theorem alnum_not_meta (c : Char) (h : c.isAlphanum = true) :
    c.toNat < 128 ∧ isMetaChar c = false := by
  have hn := alnum_toNat c h
  refine ⟨by omega, ?_⟩
  simp only [isMetaChar, List.contains_eq_any_beq, List.any_cons, List.any_nil, Bool.or_false,
    Bool.or_eq_false_iff, beq_eq_false_iff_ne, ne_eq]
  refine ⟨?_, ?_, ?_, ?_, ?_, ?_, ?_, ?_, ?_, ?_, ?_, ?_⟩ <;>
    (intro e; rw [e] at h; revert h; decide)

/-- What a case-folding literal matches is case-insensitively equal to it. -/
theorem literalMatches_equalFold (a x : Char) (h : literalMatches true a x = true) :
    equalFold a x := by
  simp only [literalMatches, Bool.true_and, Bool.or_eq_true, beq_iff_eq,
    List.contains_iff_exists_mem_beq] at h
  rcases h with h | ⟨y, hy, hya⟩
  · exact Or.inl h
  · have hya2 : a = y := hya
    subst hya2
    unfold asciiFold at hy
    split at hy
    · rename_i hu
      rw [List.mem_singleton] at hy
      subst hy
      have hn : 65 ≤ x.toNat ∧ x.toNat ≤ 90 := by
        simp only [Char.isUpper, Bool.and_eq_true, decide_eq_true_eq] at hu
        simp only [UInt32.le_def, Char.toNat] at *
        exact hu
      have hx : x = Char.ofNat x.toNat := (Char.ofNat_toNat x).symm
      generalize x.toNat = n at hn hx
      subst hx
      obtain ⟨h1, h2⟩ := hn
      refine Or.inr (Or.inl ⟨?_, Or.inr ?_⟩) <;> interval_cases n <;> rfl
    · split at hy
      · rename_i hl
        rw [List.mem_singleton] at hy
        subst hy
        have hn : 97 ≤ x.toNat ∧ x.toNat ≤ 122 := by
          simp only [Char.isLower, Bool.and_eq_true, decide_eq_true_eq] at hl
          simp only [UInt32.le_def, Char.toNat] at *
          exact hl
        have hx : x = Char.ofNat x.toNat := (Char.ofNat_toNat x).symm
        generalize x.toNat = n at hn hx
        subst hx
        obtain ⟨h1, h2⟩ := hn
        refine Or.inr (Or.inl ⟨?_, Or.inl ?_⟩) <;> interval_cases n <;> rfl
      · split at hy
        · rename_i hk
          simp only [List.mem_cons, List.mem_singleton, List.not_mem_nil, or_false] at hy
          exact Or.inr (Or.inr (Or.inl ⟨hy.symm, hk⟩))
        · split at hy
          · rename_i hk
            simp only [List.mem_cons, List.mem_singleton, List.not_mem_nil, or_false] at hy
            exact Or.inr (Or.inr (Or.inr ⟨hy.symm, hk⟩))
          · simp at hy

/-- A body is classified only through a word of the vocabulary whose pattern
compiles and matches it. -/
theorem isApproved_true_inv (R : RegexpPkg) (words : List String) (body : String)
    (h : (isApproved R words body).1 = true) :
    ∃ w ∈ words, ∃ re, R.Compile (wordPattern w) = .ok re ∧
      R.MatchString re body = true := by
  induction words with
  | nil => simp [isApproved] at h
  | cons v rest ih =>
    unfold isApproved at h
    cases hc : R.Compile (wordPattern v) with
    | error e => rw [hc] at h; simp at h
    | ok re =>
      rw [hc] at h
      simp only at h
      by_cases hm : R.MatchString re body = true
      · exact ⟨v, by simp, re, hc, hm⟩
      · simp only [hm, if_false] at h
        obtain ⟨w, hw, r⟩ := ih h
        exact ⟨w, List.mem_cons_of_mem _ hw, r⟩

/-- With phrases free of metacharacters a classified body is a
character-by-character match of a phrase, then `.`/`!` marks, then
characters of `\s`. -/
theorem classified_word (words : List String) (body : String)
    (hvoc : ∀ w ∈ words, ∀ c ∈ w.toList, c.toNat < 128 ∧ isMetaChar c = false)
    (h : (isApproved goRegexp words body).1 = true) :
    ∃ w ∈ words, ∃ w2 p s : List Char, body.toList = w2 ++ p ++ s ∧
      List.Forall₂ (fun a x => literalMatches true a x = true) w.toList w2 ∧
      (∀ c ∈ p, c = '.' ∨ c = '!') ∧
      (∀ c ∈ s, c = ' ' ∨ c = '\t' ∨ c = '\n' ∨ c = Char.ofNat 12 ∨ c = '\r') := by
  obtain ⟨w, hw, re, hc, hm⟩ := isApproved_true_inv goRegexp words body h
  rw [compile_literal_word w (hvoc w hw)] at hc
  cases hc
  exact ⟨w, hw, wordRegex_inv w.toList body.toList hm⟩

/-- With phrases free of metacharacters a classified body is a case-insensitive
copy of a phrase, then `.`/`!` marks, then characters of `\s`. -/
theorem classified_word_fold (words : List String) (body : String)
    (hvoc : ∀ w ∈ words, ∀ c ∈ w.toList, c.toNat < 128 ∧ isMetaChar c = false)
    (h : (isApproved goRegexp words body).1 = true) :
    ∃ w ∈ words, ∃ w2 p s : List Char, body.toList = w2 ++ p ++ s ∧
      List.Forall₂ equalFold w.toList w2 ∧
      (∀ c ∈ p, c = '.' ∨ c = '!') ∧
      (∀ c ∈ s, c = ' ' ∨ c = '\t' ∨ c = '\n' ∨ c = Char.ofNat 12 ∨ c = '\r') := by
  obtain ⟨w, hw, w2, p, s, hb, hF, hp, hs⟩ := classified_word words body hvoc h
  exact ⟨w, hw, w2, p, s, hb, hF.imp (fun a x hax => literalMatches_equalFold a x hax), hp, hs⟩

end LiteralWords

/-- Claim C11: exact phrase match, not substring.  For a vocabulary of plain
ASCII letters and digits, `isApproved` returns true on a body only if the
body is a case-insensitive copy of one phrase of the vocabulary (`equalFold`
character by character), followed by zero or more `.`/`!` characters and
then zero or more whitespace characters (space, tab, newline, form feed,
carriage return), and nothing else; the same holds for `isDenied`. -/
theorem exact_phrase_match (words : List String) (body : String)
    (hvoc : ∀ w ∈ words, ∀ c ∈ w.toList, c.isAlphanum = true) :
    ((isApproved goRegexp words body).1 = true →
      ∃ w ∈ words, ∃ w2 p s : List Char, body.toList = w2 ++ p ++ s ∧
        List.Forall₂ equalFold w.toList w2 ∧
        (∀ c ∈ p, c = '.' ∨ c = '!') ∧
        (∀ c ∈ s, c = ' ' ∨ c = '\t' ∨ c = '\n' ∨ c = Char.ofNat 12 ∨ c = '\r')) ∧
    ((isDenied goRegexp words body).1 = true →
      ∃ w ∈ words, ∃ w2 p s : List Char, body.toList = w2 ++ p ++ s ∧
        List.Forall₂ equalFold w.toList w2 ∧
        (∀ c ∈ p, c = '.' ∨ c = '!') ∧
        (∀ c ∈ s, c = ' ' ∨ c = '\t' ∨ c = '\n' ∨ c = Char.ofNat 12 ∨ c = '\r')) := by
  have hlit : ∀ w ∈ words, ∀ c ∈ w.toList, c.toNat < 128 ∧ isMetaChar c = false :=
    fun w hw c hc => alnum_not_meta c (hvoc w hw c hc)
  refine ⟨classified_word_fold words body hlit, ?_⟩
  rw [isDenied_eq_isApproved]
  exact classified_word_fold words body hlit

/-- Witness for C11: the body `No!` is classified as deny through the phrase
`no`; `I approve of this` is not an approval, `no thanks` is not a denial,
and bob's `no thanks` leaves the gate Pending while his `no` denies. -/
theorem exact_phrase_match_witness :
    (∃ w ∈ ["deny", "denied", "no", "reject"], ∃ w2 p s : List Char,
        "No!".toList = w2 ++ p ++ s ∧
        List.Forall₂ equalFold w.toList w2 ∧
        (∀ c ∈ p, c = '.' ∨ c = '!') ∧
        (∀ c ∈ s, c = ' ' ∨ c = '\t' ∨ c = '\n' ∨ c = Char.ofNat 12 ∨ c = '\r')) ∧
    isApproved goRegexp ["approve", "approved", "lgtm", "yes"] "I approve of this" =
      (false, none) ∧
    isDenied goRegexp ["deny", "denied", "no", "reject"] "no thanks" = (false, none) ∧
    approvalFromComments goRegexp ["approve", "approved", "lgtm", "yes"]
      ["deny", "denied", "no", "reject"] [⟨"bob", "no thanks"⟩] [] 1 [] = (.pending, none) ∧
    approvalFromComments goRegexp ["approve", "approved", "lgtm", "yes"]
      ["deny", "denied", "no", "reject"] [⟨"bob", "no"⟩] [] 1 [] = (.denied, none) :=
  ⟨(exact_phrase_match ["deny", "denied", "no", "reject"] "No!" (by decide)).2 (by decide),
    by decide, by decide, by decide, by decide⟩

/-! ## Leading whitespace and metacharacters -/

/-- A whitespace character matches no letter or digit, also under case
folding. -/
theorem whitespace_not_literal (a y : Char) (ha : a.isAlphanum = true)
    (hy : y = ' ' ∨ y = '\t' ∨ y = '\n' ∨ y = Char.ofNat 12 ∨ y = '\r') :
    literalMatches true a y = false := by
  have hfold : asciiFold y = [] := by
    rcases hy with rfl | rfl | rfl | rfl | rfl <;> rfl
  have hne : ¬ y = a := by
    intro e
    rw [← e] at ha
    rcases hy with rfl | rfl | rfl | rfl | rfl <;> revert ha <;> decide
  simp [literalMatches, hfold, hne]

/-- A classifier result is settled by its two components. -/
theorem classifier_false (r : Bool × Option Error) (h1 : r.1 ≠ true) (h2 : r.2 = none) :
    r = (false, none) := by
  obtain ⟨b, e⟩ := r
  simp only at h1 h2
  subst h2
  cases b
  · rfl
  · exact absurd rfl h1

/-- With non-empty phrases of letters and digits, a body that starts with a
whitespace character is not classified. -/
theorem leading_whitespace_unclassified (words : List String) (s b : String)
    (hvoc : ∀ w ∈ words, w ≠ "" ∧ ∀ c ∈ w.toList, c.isAlphanum = true)
    (hs : s ≠ "")
    (hws : ∀ c ∈ s.toList, c = ' ' ∨ c = '\t' ∨ c = '\n' ∨ c = Char.ofNat 12 ∨ c = '\r') :
    isApproved goRegexp words (s ++ b) = (false, none) := by
  apply classifier_false
  · intro h
    obtain ⟨w, hw, w2, p, ws, hb, hF, _, _⟩ := classified_word words (s ++ b)
      (fun w hw c hc => alnum_not_meta c ((hvoc w hw).2 c hc)) h
    have hwne : w.toList ≠ [] := by
      intro e
      apply (hvoc w hw).1
      cases w
      simp only [String.toList] at e
      subst e
      rfl
    have hsne : s.toList ≠ [] := by
      intro e
      apply hs
      cases s
      simp only [String.toList] at e
      subst e
      rfl
    simp only [String.toList, String.data_append] at hb hwne hsne hws hF
    obtain ⟨a, l1, hwd⟩ := List.exists_cons_of_ne_nil hwne
    obtain ⟨y, ys, hsd⟩ := List.exists_cons_of_ne_nil hsne
    have ha : a.isAlphanum = true := (hvoc w hw).2 a (by
      simp only [String.toList]
      rw [hwd]
      simp)
    have hy := hws y (by rw [hsd]; simp)
    rw [hwd] at hF
    rw [hsd] at hb
    cases hF with
    | @cons _ x _ l2 hax _ =>
      simp only [List.cons_append, List.cons.injEq] at hb
      rw [← hb.1, whitespace_not_literal a y ha hy] at hax
      cases hax
  · exact isApproved_no_error goRegexp words (s ++ b)
      (fun v hv => ⟨_, compile_wordPattern v (hvoc v hv).2⟩)

/-- Claim C12, amended: the body is not trimmed at its start.  For vocabularies
of non-empty phrases of ASCII letters and digits, every body `b` and every
non-empty string `s` of whitespace characters (space, tab, newline, form
feed, carriage return), `isApproved` and `isDenied` return false without
error on `s ++ b`: a body with leading whitespace is never classified. -/
theorem leading_whitespace_never_classifies (approvedWords deniedWords : List String)
    (s b : String)
    (hA : ∀ w ∈ approvedWords, w ≠ "" ∧ ∀ c ∈ w.toList, c.isAlphanum = true)
    (hD : ∀ w ∈ deniedWords, w ≠ "" ∧ ∀ c ∈ w.toList, c.isAlphanum = true)
    (hs : s ≠ "")
    (hws : ∀ c ∈ s.toList, c = ' ' ∨ c = '\t' ∨ c = '\n' ∨ c = Char.ofNat 12 ∨ c = '\r') :
    isApproved goRegexp approvedWords (s ++ b) = (false, none) ∧
      isDenied goRegexp deniedWords (s ++ b) = (false, none) := by
  refine ⟨leading_whitespace_unclassified approvedWords s b hA hs hws, ?_⟩
  rw [isDenied_eq_isApproved]
  exact leading_whitespace_unclassified deniedWords s b hD hs hws

/-- Witness for C12 as amended: `lgtm` after a newline is not classified. -/
theorem leading_whitespace_never_classifies_witness :
    isApproved goRegexp ["approve", "lgtm"] ("\n" ++ "lgtm") = (false, none) ∧
      isDenied goRegexp ["deny", "no"] ("\n" ++ "lgtm") = (false, none) :=
  leading_whitespace_never_classifies ["approve", "lgtm"] ["deny", "no"] "\n" "lgtm"
    (by decide) (by decide) (by decide) (by decide)

/-- Counterexample to C12 as stated: `approve` is classified as an approval, but
with a leading space it is not, so the classification of `s ++ b` differs
from that of `b`; `lgtm` after a newline is not classified either. -/
theorem leading_whitespace_counterexample :
    isApproved goRegexp ["approve", "lgtm"] "approve" = (true, none) ∧
      isApproved goRegexp ["approve", "lgtm"] (" " ++ "approve") = (false, none) ∧
      isApproved goRegexp ["approve", "lgtm"] (" " ++ "approve") ≠
        isApproved goRegexp ["approve", "lgtm"] "approve" ∧
      isApproved goRegexp ["approve", "lgtm"] ("\n" ++ "lgtm") = (false, none) := by
  refine ⟨by decide, by decide, by decide, by decide⟩

/-- Claim C13, amended: phrases without metacharacters are literal text.  For a
vocabulary of ASCII phrases that hold none of the characters
`( ) | ^ $ . [ * + ? {` and backslash, `isApproved` or `isDenied` returns
true on a body only if the body is a case-insensitive copy of one phrase of
the vocabulary taken character for character, followed only by `.`/`!`
characters and then whitespace characters. -/
theorem metachar_free_phrases_are_literal (words : List String) (body : String)
    (hvoc : ∀ w ∈ words, ∀ c ∈ w.toList, c.toNat < 128 ∧ isMetaChar c = false) :
    ((isApproved goRegexp words body).1 = true ∨ (isDenied goRegexp words body).1 = true) →
      ∃ w ∈ words, ∃ w2 p s : List Char, body.toList = w2 ++ p ++ s ∧
        List.Forall₂ equalFold w.toList w2 ∧
        (∀ c ∈ p, c = '.' ∨ c = '!') ∧
        (∀ c ∈ s, c = ' ' ∨ c = '\t' ∨ c = '\n' ∨ c = Char.ofNat 12 ∨ c = '\r') := by
  intro h
  rw [isDenied_eq_isApproved, or_self] at h
  exact classified_word_fold words body hvoc h

/-- Witness for C13 as amended: phrases with a space and with a hyphen. -/
theorem metachar_free_phrases_are_literal_witness :
    ∃ w ∈ ["looks good", "ship-it"], ∃ w2 p s : List Char,
      "Looks Good!!\n".toList = w2 ++ p ++ s ∧
      List.Forall₂ equalFold w.toList w2 ∧
      (∀ c ∈ p, c = '.' ∨ c = '!') ∧
      (∀ c ∈ s, c = ' ' ∨ c = '\t' ∨ c = '\n' ∨ c = Char.ofNat 12 ∨ c = '\r') :=
  metachar_free_phrases_are_literal ["looks good", "ship-it"] "Looks Good!!\n" (by decide)
    (Or.inl (by decide))

/-- Counterexample to C13 as stated: the phrase is put into the pattern
unescaped, so with the phrase `a.c` the body `abc` is a match, and with the
phrase `yes|x` the body `yes and more` is a match. -/
theorem metachar_phrases_counterexample :
    isApproved goRegexp ["a.c"] "abc" = (true, none) ∧
      isDenied goRegexp ["a.c"] "abc" = (true, none) ∧
      isApproved goRegexp ["yes|x"] "yes and more" = (true, none) ∧
      isDenied goRegexp ["yes|x"] "yes and more" = (true, none) := by
  refine ⟨by decide, by decide, by decide, by decide⟩

end ManualApproval
